import Mathlib

/-!
Verification of the structural-tag compiler (`cpp/structural_tag.cc`).

Byte strings (`std::string` in the source) are modelled as `List Nat`,
one entry per byte.  The `Format` tagged union, the analyzer, the
fingerprinter, the grammar converter and the regex-excludes exclusion
automaton are shallowly embedded below, following the source line by
line.  External collaborators (the grammar builder, the JSON reader,
the regex FSM builder, the FSM intersection) are not part of the source
tree; they are modelled from the specification and are marked as such
in their doc comments.
-/

set_option autoImplicit false

namespace XGrammar

/-- A byte string: each element is one byte of a `std::string`. -/
abbrev ByteStr := List Nat

/-! ### The Format AST (structural_tag.h data model, as used by structural_tag.cc)

`Format` is the tagged union of all format variants.  The annotation
fields filled by the analyzer (`is_unlimited_`, `detected_end_strs_`)
are carried as constructor arguments; the parser creates them with
their default values (`false`, `[]`).  `TagFormat.endStrs` is the `end`
field (renamed: `end` is a Lean keyword, `begin` likewise). -/

mutual

inductive Format where
  | constString (value : ByteStr)
  | jsonSchema (json_schema : ByteStr)
  | qwenXmlParameter (xml_schema : ByteStr)
  | anyText (excluded_strs : List ByteStr) (detected_end_strs : List ByteStr)
  | grammarFormat (grammar : ByteStr)
  | regexFormat (pattern : ByteStr) (excluded_strs : List ByteStr)
  | sequence (elements : FormatList) (is_unlimited : Bool)
  | orFormat (elements : FormatList) (is_unlimited : Bool)
  | tag (t : TagFormat)
  | triggeredTags (triggers : List ByteStr) (tags : TagList) (excluded_strs : List ByteStr)
      (detected_end_strs : List ByteStr) (at_least_one : Bool) (stop_after_first : Bool)
  | tagsWithSeparator (tags : TagList) (separator : ByteStr)
      (detected_end_strs : List ByteStr) (at_least_one : Bool) (stop_after_first : Bool)
  deriving DecidableEq

inductive FormatList where
  | nil
  | cons (head : Format) (tail : FormatList)
  deriving DecidableEq

inductive TagFormat where
  | mk (beginStr : ByteStr) (content : Format) (endStrs : List ByteStr)
  deriving DecidableEq

inductive TagList where
  | nil
  | cons (head : TagFormat) (tail : TagList)
  deriving DecidableEq

end

/-- `begin` field of a Tag. -/
def TagFormat.beginOf : TagFormat → ByteStr
  | .mk b _ _ => b

/-- `content` field of a Tag. -/
def TagFormat.contentOf : TagFormat → Format
  | .mk _ c _ => c

/-- `end` field of a Tag. -/
def TagFormat.endOf : TagFormat → List ByteStr
  | .mk _ _ e => e

/-- Membership in a `FormatList`. -/
def FormatList.memF (f : Format) : FormatList → Prop
  | .nil => False
  | .cons h t => f = h ∨ memF f t

/-- Membership in a `TagList`. -/
def TagList.memT (x : TagFormat) : TagList → Prop
  | .nil => False
  | .cons h t => x = h ∨ memT x t

/-- Length of a `TagList`. -/
def TagList.lengthT : TagList → Nat
  | .nil => 0
  | .cons _ t => 1 + t.lengthT

/-- `StructuralTagAnalyzer::IsUnlimited`: AnyText, TriggeredTags and
TagsWithSeparator are always unlimited; Sequence and Or report their
derived flag; every other variant is limited. -/
def isUnlimited : Format → Bool
  | .anyText _ _ => true
  | .triggeredTags _ _ _ _ _ _ => true
  | .tagsWithSeparator _ _ _ _ _ => true
  | .sequence _ u => u
  | .orFormat _ u => u
  | _ => false

/-! ### FormatFingerprinter

`FormatFingerprinter::Compute` produces a byte string summarizing a
format subtree.  The literal delimiters of the source are written as
explicit byte lists: 58 is the colon, 124 the vertical bar, 44 the
comma, 91/93 the square brackets, 123/125 the curly braces, 48/49 the
digits 0/1. -/

/-- Join a list of byte strings, appending a vertical bar (124) after
each element, as the fingerprinter's loops do. -/
def joinBar (xs : List ByteStr) : ByteStr :=
  (xs.map (fun s => s ++ [124])).flatten

/-- Join a list of byte strings, appending a comma (44) after each
element (used for TriggeredTags triggers). -/
def joinComma (xs : List ByteStr) : ByteStr :=
  (xs.map (fun s => s ++ [44])).flatten

/-- `std::to_string` applied to a bool promoted to int: 49 is the digit
1, 48 the digit 0. -/
def boolByte (b : Bool) : Nat := if b then 49 else 48

mutual

/-- `FormatFingerprinter::Compute` / `ComputeImpl`, translated case by
case from the source.  The two-byte variant codes are: CS=67,83;
JS=74,83; QX=81,88; AT=65,84; GR=71,82; RX=82,88; SQ=83,81; OR=79,82;
TG=84,71; TT=84,84; TS=84,83. -/
def fingerprint : Format → ByteStr
  | .constString v => [67, 83, 58] ++ v
  | .jsonSchema s => [74, 83, 58] ++ s
  | .qwenXmlParameter s => [81, 88, 58] ++ s
  | .anyText ex de => [65, 84, 58] ++ joinBar ex ++ [69, 58] ++ joinBar de
  | .grammarFormat g => [71, 82, 58] ++ g
  | .regexFormat p ex =>
      [82, 88, 58] ++ p ++ (if ex.isEmpty then [] else [58, 88, 58] ++ joinBar ex)
  | .sequence es _ => [83, 81, 91] ++ fingerprintElems es ++ [93]
  | .orFormat es _ => [79, 82, 91] ++ fingerprintElems es ++ [93]
  | .tag t => fingerprintTag t
  | .triggeredTags trigs _ _ _ alo saf =>
      [84, 84, 58] ++ joinComma trigs ++ [58] ++ [boolByte alo, 44, boolByte saf]
  | .tagsWithSeparator _ sep _ alo saf =>
      [84, 83, 58] ++ sep ++ [58] ++ [boolByte alo, 44, boolByte saf]

/-- The fingerprinter's loop over Sequence/Or elements: each element's
fingerprint followed by a comma. -/
def fingerprintElems : FormatList → ByteStr
  | .nil => []
  | .cons e rest => fingerprint e ++ [44] ++ fingerprintElems rest

/-- `FormatFingerprinter::VisitSub(TagFormat)`: TG code, begin, an
open-brace (123) delimited content fingerprint, then the end strings. -/
def fingerprintTag : TagFormat → ByteStr
  | .mk b c e => [84, 71, 58] ++ b ++ [58, 123] ++ fingerprint c ++ [125, 58] ++ joinBar e

end

/-- The variant index of a format (used to state that the fingerprint
determines the variant). -/
def variantTag : Format → Nat
  | .constString _ => 0
  | .jsonSchema _ => 1
  | .qwenXmlParameter _ => 2
  | .anyText _ _ => 3
  | .grammarFormat _ => 4
  | .regexFormat _ _ => 5
  | .sequence _ _ => 6
  | .orFormat _ _ => 7
  | .tag _ => 8
  | .triggeredTags _ _ _ _ _ _ => 9
  | .tagsWithSeparator _ _ _ _ _ => 10

/-- The two leading bytes of each variant's fingerprint. -/
def variantCode : Nat → ByteStr
  | 0 => [67, 83]
  | 1 => [74, 83]
  | 2 => [81, 88]
  | 3 => [65, 84]
  | 4 => [71, 82]
  | 5 => [82, 88]
  | 6 => [83, 81]
  | 7 => [79, 82]
  | 8 => [84, 71]
  | 9 => [84, 84]
  | 10 => [84, 83]
  | _ => []

/-! ### JSON values and the StructuralTag parser

`picojson` is an external collaborator; its value tree is modelled by
`JVal`.  Object keys are Lean `String`s (they are only compared for
equality); JSON string *values* are byte strings, since they flow into
the `Format` fields. -/

/-- The bytes of an ASCII Lean string literal. -/
def strBytes (s : String) : ByteStr := s.data.map Char.toNat

inductive JVal where
  | jstr (s : ByteStr)
  | jnum (n : Int)
  | jbool (b : Bool)
  | jnull
  | jarr (elems : List JVal)
  | jobj (fields : List (String × JVal))

/-- `picojson::object::find`: first binding of the key, if any. -/
def jfind (fields : List (String × JVal)) (k : String) : Option JVal :=
  (fields.find? (fun p => p.1 = k)).map (·.2)

/-- Conversion from an ordinary list. -/
def FormatList.ofList : List Format → FormatList
  | [] => .nil
  | f :: rest => .cons f (ofList rest)

/-- Conversion to an ordinary list. -/
def FormatList.toList : FormatList → List Format
  | .nil => []
  | .cons f rest => f :: toList rest

/-- Conversion from an ordinary list. -/
def TagList.ofList : List TagFormat → TagList
  | [] => .nil
  | t :: rest => .cons t (ofList rest)

/-- Conversion to an ordinary list. -/
def TagList.toList : TagList → List TagFormat
  | .nil => []
  | .cons t rest => t :: toList rest

mutual

/-- Modelled from the spec: `picojson::value::serialize(false)`, used
by the parser to re-serialize a `json_schema` field (the JSON writer is
an external collaborator).  34 is the double quote, 44 the comma, 58
the colon, 91/93 the square brackets, 123/125 the curly braces. -/
def serializeJVal : JVal → ByteStr
  | .jstr s => [34] ++ s ++ [34]
  | .jnum n => strBytes (toString n)
  | .jbool b => if b then strBytes "true" else strBytes "false"
  | .jnull => strBytes "null"
  | .jarr es => [91] ++ serializeJList es ++ [93]
  | .jobj fs => [123] ++ serializeJFields fs ++ [125]

def serializeJList : List JVal → ByteStr
  | [] => []
  | [e] => serializeJVal e
  | e :: rest => serializeJVal e ++ [44] ++ serializeJList rest

def serializeJFields : List (String × JVal) → ByteStr
  | [] => []
  | [(k, v)] => [34] ++ strBytes k ++ [34, 58] ++ serializeJVal v
  | (k, v) :: rest =>
      [34] ++ strBytes k ++ [34, 58] ++ serializeJVal v ++ [44] ++ serializeJFields rest

end

/-- Is the value a JSON object or a boolean (accepted for
`json_schema` fields)? -/
def isObjOrBool : JVal → Bool
  | .jobj _ => true
  | .jbool _ => true
  | _ => false

/-- Parse a JSON array as a list of strings.  When `allowEmpty` is
false, empty strings are rejected (triggers, regex/triggered-tags
excludes); AnyText excludes allow empty strings. -/
def parseStrArr (allowEmpty : Bool) (errMsg : String) : List JVal → Except String (List ByteStr)
  | [] => .ok []
  | .jstr s :: rest =>
      if !allowEmpty && s = [] then .error errMsg
      else
        match parseStrArr allowEmpty errMsg rest with
        | .error e => .error e
        | .ok tail => .ok (s :: tail)
  | _ :: _ => .error errMsg

/-- Parse an optional boolean field (`at_least_one`,
`stop_after_first`), defaulting to false. -/
def parseOptBool (o : List (String × JVal)) (k : String) : Except String Bool :=
  match jfind o k with
  | none => .ok false
  | some (.jbool b) => .ok b
  | some _ => .error (k ++ " must be a boolean")

/-- `StructuralTagParser::ParseConstStringFormat`. -/
def parseConstStringFormat (o : List (String × JVal)) : Except String Format :=
  match jfind o "value" with
  | some (.jstr v) =>
      if v = [] then
        .error "ConstString format must have a value field with a non-empty string"
      else .ok (.constString v)
  | _ => .error "ConstString format must have a value field with a non-empty string"

/-- `StructuralTagParser::ParseJSONSchemaFormat`. -/
def parseJSONSchemaFormat (o : List (String × JVal)) : Except String Format :=
  match jfind o "json_schema" with
  | some v =>
      if isObjOrBool v then .ok (.jsonSchema (serializeJVal v))
      else .error "JSON schema format must have a json_schema field with a object or boolean value"
  | none => .error "JSON schema format must have a json_schema field with a object or boolean value"

/-- `StructuralTagParser::ParseQwenXmlParameterFormat`. -/
def parseQwenXmlParameterFormat (o : List (String × JVal)) : Except String Format :=
  match jfind o "json_schema" with
  | some v =>
      if isObjOrBool v then .ok (.qwenXmlParameter (serializeJVal v))
      else .error
        "Qwen XML Parameter format must have a json_schema field with a object or boolean value"
  | none => .error
      "Qwen XML Parameter format must have a json_schema field with a object or boolean value"

/-- `StructuralTagParser::ParseAnyTextFormat`: with no `excludes`
field, the object must carry an explicit `type` field; otherwise
`excludes` must be an array of (possibly empty) strings. -/
def parseAnyTextFormat (o : List (String × JVal)) : Except String Format :=
  match jfind o "excludes" with
  | none =>
      if (jfind o "type").isNone then
        .error "Any text format should not have any fields other than type"
      else .ok (.anyText [] [])
  | some (.jarr arr) =>
      (match parseStrArr true "AnyText format's excluded_strs array must contain strings" arr with
       | .error e => .error e
       | .ok strs => .ok (.anyText strs []))
  | some _ => .error "AnyText format's excluded_strs field must be an array"

/-- `StructuralTagParser::ParseGrammarFormat`. -/
def parseGrammarFormat (o : List (String × JVal)) : Except String Format :=
  match jfind o "grammar" with
  | some (.jstr g) =>
      if g = [] then .error "Grammar format must have a grammar field with a non-empty string"
      else .ok (.grammarFormat g)
  | _ => .error "Grammar format must have a grammar field with a non-empty string"

/-- `StructuralTagParser::ParseRegexFormat`: non-empty `pattern`,
optional `excludes` array of non-empty strings. -/
def parseRegexFormat (o : List (String × JVal)) : Except String Format :=
  match jfind o "pattern" with
  | some (.jstr p) =>
      if p = [] then .error "Regex format must have a pattern field with a non-empty string"
      else
        match jfind o "excludes" with
        | none => .ok (.regexFormat p [])
        | some (.jarr arr) =>
            (match
              parseStrArr false "Regex format's excludes array must contain non-empty strings" arr
             with
             | .error e => .error e
             | .ok strs => .ok (.regexFormat p strs))
        | some _ => .error "Regex format's excludes field must be an array"
  | _ => .error "Regex format must have a pattern field with a non-empty string"

mutual

/-- `StructuralTagParser::ParseFormat`.  The recursion guard
(`support/recursion_guard.h`, not under `src/`) is modelled from the
spec as a fuel argument: each nested `ParseFormat` call consumes one
unit, and exhausting it is a parse error. -/
def parseFormat : Nat → JVal → Except String Format
  | 0, _ => .error "Recursion depth limit exceeded"
  | n + 1, v =>
    match v with
    | .jobj o =>
      match jfind o "type" with
      | some tv =>
        match tv with
        | .jstr ty =>
          if ty = strBytes "const_string" then parseConstStringFormat o
          else if ty = strBytes "json_schema" then parseJSONSchemaFormat o
          else if ty = strBytes "any_text" then parseAnyTextFormat o
          else if ty = strBytes "sequence" then parseSequenceFormat n o
          else if ty = strBytes "or" then parseOrFormat n o
          else if ty = strBytes "tag" then
            match parseTagFormatO n o with
            | .ok t => .ok (.tag t)
            | .error e => .error e
          else if ty = strBytes "triggered_tags" then parseTriggeredTagsFormat n o
          else if ty = strBytes "tags_with_separator" then parseTagsWithSeparatorFormat n o
          else if ty = strBytes "qwen_xml_parameter" then parseQwenXmlParameterFormat o
          else if ty = strBytes "grammar" then parseGrammarFormat o
          else if ty = strBytes "regex" then parseRegexFormat o
          else .error "Format type not recognized"
        | _ => .error "Format's type must be a string"
      | none =>
        match parseTagFormatO n o with
        | .ok t => .ok (.tag t)
        | .error _ =>
        match parseConstStringFormat o with
        | .ok f => .ok f
        | .error _ =>
        match parseJSONSchemaFormat o with
        | .ok f => .ok f
        | .error _ =>
        match parseAnyTextFormat o with
        | .ok f => .ok f
        | .error _ =>
        match parseSequenceFormat n o with
        | .ok f => .ok f
        | .error _ =>
        match parseOrFormat n o with
        | .ok f => .ok f
        | .error _ =>
        match parseTriggeredTagsFormat n o with
        | .ok f => .ok f
        | .error _ =>
        match parseTagsWithSeparatorFormat n o with
        | .ok f => .ok f
        | .error _ => .error "Invalid format"
    | _ => .error "Format must be an object"

/-- `StructuralTagParser::ParseTagFormat(const picojson::value&)`: the
overload with the object and `type` field checks. -/
def parseTagFormatV : Nat → JVal → Except String TagFormat
  | n, v =>
    match v with
    | .jobj o =>
      match jfind o "type" with
      | some (.jstr ty) =>
          if ty = strBytes "tag" then parseTagFormatO n o
          else .error "Tag format's type must be a string \"tag\""
      | some _ => .error "Tag format's type must be a string \"tag\""
      | none => parseTagFormatO n o
    | _ => .error "Tag format must be an object"

/-- `StructuralTagParser::ParseTagFormat(const picojson::object&)`:
`begin` must be a string, `content` a Format, `end` a string or a
non-empty array of strings. -/
def parseTagFormatO : Nat → List (String × JVal) → Except String TagFormat
  | n, o =>
    match jfind o "begin" with
    | some (.jstr b) =>
      (match jfind o "content" with
       | some cv =>
         (match parseFormat n cv with
          | .error e => .error e
          | .ok c =>
            match jfind o "end" with
            | some (.jstr e) => .ok (.mk b c [e])
            | some (.jarr arr) =>
                if arr.isEmpty then .error "Tag format's end array cannot be empty"
                else
                  match parseStrArr true "Tag format's end array must contain only strings" arr with
                  | .error e => .error e
                  | .ok ends => .ok (.mk b c ends)
            | some _ => .error "Tag format's end field must be a string or array of strings"
            | none => .error "Tag format must have an end field")
       | none => .error "Tag format must have a content field")
    | _ => .error "Tag format's begin field must be a string"

/-- `StructuralTagParser::ParseSequenceFormat`, including the one-level
flattening of nested sequences. -/
def parseSequenceFormat : Nat → List (String × JVal) → Except String Format
  | n, o =>
    match jfind o "elements" with
    | some (.jarr arr) =>
      (match parseSeqElems n arr with
       | .error e => .error e
       | .ok elems =>
         if elems.isEmpty then .error "Sequence format must have at least one element"
         else .ok (.sequence (FormatList.ofList elems) false))
    | _ => .error "Sequence format must have an elements field with an array"

/-- The element loop of `ParseSequenceFormat`: parsed elements that are
themselves sequences are inlined one level. -/
def parseSeqElems : Nat → List JVal → Except String (List Format)
  | _, [] => .ok []
  | n, v :: rest =>
    match parseFormat n v with
    | .error e => .error e
    | .ok f =>
      match parseSeqElems n rest with
      | .error e => .error e
      | .ok tail =>
        match f with
        | .sequence es _ => .ok (FormatList.toList es ++ tail)
        | _ => .ok (f :: tail)

/-- `StructuralTagParser::ParseOrFormat`. -/
def parseOrFormat : Nat → List (String × JVal) → Except String Format
  | n, o =>
    match jfind o "elements" with
    | some (.jarr arr) =>
      (match parseOrElems n arr with
       | .error e => .error e
       | .ok elems =>
         if elems.isEmpty then .error "Or format must have at least one element"
         else .ok (.orFormat (FormatList.ofList elems) false))
    | _ => .error "Or format must have an elements field with an array"

/-- The element loop of `ParseOrFormat` (no flattening). -/
def parseOrElems : Nat → List JVal → Except String (List Format)
  | _, [] => .ok []
  | n, v :: rest =>
    match parseFormat n v with
    | .error e => .error e
    | .ok f =>
      match parseOrElems n rest with
      | .error e => .error e
      | .ok tail => .ok (f :: tail)

/-- The tag-array loop of `ParseTriggeredTagsFormat` and
`ParseTagsWithSeparatorFormat`. -/
def parseTagArr : Nat → List JVal → Except String (List TagFormat)
  | _, [] => .ok []
  | n, v :: rest =>
    match parseTagFormatV n v with
    | .error e => .error e
    | .ok t =>
      match parseTagArr n rest with
      | .error e => .error e
      | .ok tail => .ok (t :: tail)

/-- `StructuralTagParser::ParseTriggeredTagsFormat`. -/
def parseTriggeredTagsFormat : Nat → List (String × JVal) → Except String Format
  | n, o =>
    match jfind o "triggers" with
    | some (.jarr trigArr) =>
      (match parseStrArr false "Triggered tags format's triggers must be non-empty strings"
          trigArr with
       | .error e => .error e
       | .ok triggers =>
         if triggers.isEmpty then .error "Triggered tags format's triggers must be non-empty"
         else
           match jfind o "tags" with
           | some (.jarr tagArr) =>
             (match parseTagArr n tagArr with
              | .error e => .error e
              | .ok tags =>
                if tags.isEmpty then .error "Triggered tags format's tags must be non-empty"
                else
                  (match
                    (match jfind o "excludes" with
                     | none => Except.ok ([] : List ByteStr)
                     | some (.jarr exArr) =>
                         parseStrArr false
                           "Triggered tags format's excluded_strs must be non-empty strings" exArr
                     | some _ =>
                         Except.error
                           "Triggered tags format should have a excludes field with an array")
                    with
                   | .error e => .error e
                   | .ok excludes =>
                     match parseOptBool o "at_least_one" with
                     | .error e => .error e
                     | .ok alo =>
                       match parseOptBool o "stop_after_first" with
                       | .error e => .error e
                       | .ok saf =>
                           .ok (.triggeredTags triggers (TagList.ofList tags) excludes []
                             alo saf)))
             | _ => .error "Triggered tags format must have a tags field with an array")
    | _ => .error "Triggered tags format must have a triggers field with an array"

/-- `StructuralTagParser::ParseTagsWithSeparatorFormat`. -/
def parseTagsWithSeparatorFormat : Nat → List (String × JVal) → Except String Format
  | n, o =>
    match jfind o "tags" with
    | some (.jarr tagArr) =>
      (match parseTagArr n tagArr with
       | .error e => .error e
       | .ok tags =>
         if tags.isEmpty then .error "Tags with separator format's tags must be non-empty"
         else
           match jfind o "separator" with
           | some (.jstr sep) =>
             (match parseOptBool o "at_least_one" with
              | .error e => .error e
              | .ok alo =>
                match parseOptBool o "stop_after_first" with
                | .error e => .error e
                | .ok saf => .ok (.tagsWithSeparator (TagList.ofList tags) sep [] alo saf))
           | _ => .error "Tags with separator format's separator field must be a string")
    | _ => .error "Tags with separator format must have a tags field with an array"

end

/-- `StructuralTagParser::ParseStructuralTag`: the top level must be an
object whose optional `type` is the string `structural_tag` and whose
`format` field holds the single format. -/
def parseStructuralTag (fuel : Nat) (v : JVal) : Except String Format :=
  match v with
  | .jobj o =>
    (match jfind o "type" with
     | some (.jstr ty) =>
         if ty = strBytes "structural_tag" then
           match jfind o "format" with
           | some fv => parseFormat fuel fv
           | none => .error "Structural tag must have a format field"
         else .error "Structural tag's type must be a string \"structural_tag\""
     | some _ => .error "Structural tag's type must be a string \"structural_tag\""
     | none =>
         match jfind o "format" with
         | some fv => parseFormat fuel fv
         | none => .error "Structural tag must have a format field")
  | _ => .error "Structural tag must be an object"

/-! ### StructuralTagAnalyzer

The analyzer walks the AST carrying a stack of ancestor frames.  In the
source the frames are pointers; a frame's fields are read only through
`DetectEndStrings`, which inspects just the `end` field of the nearest
Tag frame, and a Tag's `end` is not mutated while its descendants are
being visited, so the pure model pushes the pre-visit snapshot of each
node.  The recursion guard of the analyzer's `Visit` only adds an error
case on very deep inputs and is not modelled (the embedding recurses
structurally). -/

/-- `StructuralTagAnalyzer::DetectEndStrings`: the `end` strings of the
nearest enclosing Tag frame, or `[]` if there is none. -/
def detectEndStrings : List Format → List ByteStr
  | [] => []
  | .tag t :: _ => t.endOf
  | _ :: rest => detectEndStrings rest

mutual

/-- `StructuralTagAnalyzer::Visit` + `VisitSub`, per variant.  The
returned format carries the annotations the source writes in place. -/
def analyzeFormat (stack : List Format) (f : Format) : Except String Format :=
  match f with
  | .constString v => .ok (.constString v)
  | .jsonSchema s => .ok (.jsonSchema s)
  | .qwenXmlParameter s => .ok (.qwenXmlParameter s)
  | .grammarFormat g => .ok (.grammarFormat g)
  | .regexFormat p ex => .ok (.regexFormat p ex)
  | .anyText ex de => .ok (.anyText ex (detectEndStrings (Format.anyText ex de :: stack)))
  | .sequence es u =>
    (match analyzeSeqElems (Format.sequence es u :: stack) es with
     | .error e => .error e
     | .ok (es', lastU) => .ok (.sequence es' lastU))
  | .orFormat es u =>
    (match analyzeOrElems (Format.orFormat es u :: stack) es with
     | .error e => .error e
     | .ok (es', anyU, allU) =>
       if anyU && !allU then
         .error "Now we only support all elements in an or format to be unlimited or all limited"
       else .ok (.orFormat es' anyU))
  | .tag t =>
    (match analyzeTag stack t with
     | .error e => .error e
     | .ok t' => .ok (.tag t'))
  | .triggeredTags trigs tags ex de alo saf =>
    (match analyzeTagList (Format.triggeredTags trigs tags ex de alo saf :: stack) tags with
     | .error e => .error e
     | .ok tags' =>
       .ok (.triggeredTags trigs tags' ex
         (detectEndStrings (Format.triggeredTags trigs tags ex de alo saf :: stack)) alo saf))
  | .tagsWithSeparator tags sep de alo saf =>
    (match analyzeTagList (Format.tagsWithSeparator tags sep de alo saf :: stack) tags with
     | .error e => .error e
     | .ok tags' =>
       .ok (.tagsWithSeparator tags' sep
         (detectEndStrings (Format.tagsWithSeparator tags sep de alo saf :: stack)) alo saf))

/-- `StructuralTagAnalyzer::VisitSub(TagFormat*)`: visit the content
(with this tag's frame on the stack); if the content is unlimited,
require a non-empty end string and clear `end`, else keep `end`. -/
def analyzeTag (stack : List Format) (t : TagFormat) : Except String TagFormat :=
  match t with
  | .mk b c e =>
    match analyzeFormat (Format.tag (.mk b c e) :: stack) c with
    | .error err => .error err
    | .ok c' =>
      if isUnlimited c' then
        if e.any (fun s => !s.isEmpty) then .ok (.mk b c' [])
        else .error "When the content is unlimited, at least one end string must be non-empty"
      else .ok (.mk b c' e)

/-- `StructuralTagAnalyzer::VisitSub(SequenceFormat*)`: every non-last
element must be limited once analyzed; the sequence's flag comes from
the last element.  The source indexes `elements.back()` and relies on
the parser-established non-emptiness; the `nil` case is unreachable and
mapped to an error. -/
def analyzeSeqElems (stack : List Format) : FormatList → Except String (FormatList × Bool)
  | .nil => .error "Sequence format must have at least one element"
  | .cons e .nil =>
    (match analyzeFormat stack e with
     | .error err => .error err
     | .ok e' => .ok (.cons e' .nil, isUnlimited e'))
  | .cons e (.cons e2 rest) =>
    (match analyzeFormat stack e with
     | .error err => .error err
     | .ok e' =>
       if isUnlimited e' then
         .error "Only the last element in a sequence can be unlimited"
       else
         match analyzeSeqElems stack (.cons e2 rest) with
         | .error err => .error err
         | .ok (rest', u) => .ok (.cons e' rest', u))

/-- `StructuralTagAnalyzer::VisitSub(OrFormat*)`: visit every element,
tracking whether any/all are unlimited (the mixed check is done by the
caller, after the whole list is visited). -/
def analyzeOrElems (stack : List Format) : FormatList → Except String (FormatList × Bool × Bool)
  | .nil => .ok (.nil, false, true)
  | .cons e rest =>
    (match analyzeFormat stack e with
     | .error err => .error err
     | .ok e' =>
       match analyzeOrElems stack rest with
       | .error err => .error err
       | .ok (rest', anyU, allU) =>
         .ok (.cons e' rest', isUnlimited e' || anyU, isUnlimited e' && allU))

/-- The tag loops of `VisitSub(TriggeredTagsFormat*)` and
`VisitSub(TagsWithSeparatorFormat*)`. -/
def analyzeTagList (stack : List Format) : TagList → Except String TagList
  | .nil => .ok .nil
  | .cons t rest =>
    (match analyzeTag stack t with
     | .error e => .error e
     | .ok t' =>
       match analyzeTagList stack rest with
       | .error e => .error e
       | .ok rest' => .ok (.cons t' rest'))

end

/-- `StructuralTagAnalyzer::Analyze`: the walk starts with an empty
ancestor stack. -/
def analyzeStructuralTag (f : Format) : Except String Format :=
  analyzeFormat [] f

/-! ### The exclusion automaton of the regex-with-excludes path

`StructuralTagGrammarConverter::VisitSub(RegexFormat)` builds a trie
over the excluded strings, marks the terminal states dead, completes
every non-dead state with copies of the start state's edges and
fallback edges to the start, removes all edges into dead states and
makes every non-dead state accepting.  The `FSM` container itself lives
in `fsm.h` (external); it is modelled as a list of edge lists. -/

structure FSMEdge where
  min : Nat
  max : Nat
  target : Nat
  deriving DecidableEq, Repr

/-- The FSM: one edge list per state, indexed by position. -/
abbrev Fsm := List (List FSMEdge)

/-- `FSM::GetEdges`. -/
def getEdges (fsm : Fsm) (s : Nat) : List FSMEdge := fsm.getD s []

/-- Modelled from the spec: `FSM::GetNextState` (fsm.h is external):
the target of the first edge of `s` whose byte range contains `ch`, or
`none` (`kNoNextState`). -/
def getNextState (fsm : Fsm) (s ch : Nat) : Option Nat :=
  ((getEdges fsm s).find? (fun e => decide (e.min ≤ ch ∧ ch ≤ e.max))).map (·.target)

/-- `FSM::AddEdge`: append one edge to a state's edge list. -/
def addEdgeF (fsm : Fsm) (s : Nat) (e : FSMEdge) : Fsm :=
  fsm.set s (getEdges fsm s ++ [e])

/-- Step 1 inner loop: walk/create a chain of states for one excluded
string, one byte at a time, returning the chain's terminal state.
`AddState` appends a fresh empty state. -/
def trieInsertFrom : Fsm → Nat → ByteStr → Fsm × Nat
  | fsm, cur, [] => (fsm, cur)
  | fsm, cur, b :: rest =>
    match getNextState fsm cur b with
    | some nxt => trieInsertFrom fsm nxt rest
    | none =>
      let nxt := fsm.length
      let fsm1 := fsm ++ [[]]
      let fsm2 := addEdgeF fsm1 cur ⟨b, b, nxt⟩
      trieInsertFrom fsm2 nxt rest

/-- Step 1: build the trie over all excluded strings, collecting the
terminal (dead) states; the FSM starts with the single state 0. -/
def buildTrie (excludes : List ByteStr) : Fsm × List Nat :=
  excludes.foldl
    (fun acc e =>
      let (fsm', endSt) := trieInsertFrom acc.1 0 e
      (fsm', acc.2 ++ [endSt]))
    ([[]], [])

/-- The set of bytes covered by a list of edges (the
`covered_bytes` set of step 2). -/
def coveredOf (edges : List FSMEdge) : List Nat :=
  edges.flatMap (fun e => (List.range (e.max + 1 - e.min)).map (fun i => e.min + i))

/-- Step 2, copying loop: copy each start edge whose byte is not yet
covered. -/
def copyStartEdges (startEdges edges : List FSMEdge) (covered : List Nat) :
    List FSMEdge × List Nat :=
  startEdges.foldl
    (fun acc se =>
      if acc.2.contains se.min then acc else (acc.1 ++ [se], acc.2 ++ [se.min]))
    (edges, covered)

/-- Step 2, gap loop: fall back to the start state 0 on every byte in
`[0, 255]` that is still uncovered. -/
def gapEdges (covered : List Nat) : List FSMEdge :=
  ((List.range 256).filter (fun b => !covered.contains b)).map (fun b => ⟨b, b, 0⟩)

/-- Step 2 body for one non-dead state. -/
def completeState (fsm : Fsm) (s : Nat) : Fsm :=
  let edges := getEdges fsm s
  let covered := coveredOf edges
  let ec :=
    if s ≠ 0 then copyStartEdges (getEdges fsm 0) edges covered else (edges, covered)
  fsm.set s (ec.1 ++ gapEdges ec.2)

/-- Step 2: complete every non-dead state, in state order (the number
of states is fixed before the loop). -/
def completeAll (fsm : Fsm) (dead : List Nat) : Fsm :=
  (List.range fsm.length).foldl
    (fun acc s => if dead.contains s then acc else completeState acc s) fsm

/-- Step 3: remove every edge whose target is dead. -/
def removeDeadEdges (fsm : Fsm) (dead : List Nat) : Fsm :=
  fsm.map (fun edges => edges.filter (fun e => !dead.contains e.target))

/-- Steps 1-3 combined: the exclusion automaton and its dead states. -/
def buildExcludeFsm (excludes : List ByteStr) : Fsm × List Nat :=
  let td := buildTrie excludes
  (removeDeadEdges (completeAll td.1 td.2) td.2, td.2)

/-- Run the automaton from a state over a byte string; `none` when a
byte has no transition. -/
def runFsm (fsm : Fsm) : Nat → ByteStr → Option Nat
  | s, [] => some s
  | s, b :: rest =>
    match getNextState fsm s b with
    | some t => runFsm fsm t rest
    | none => none

/-- Acceptance of the exclusion automaton: run from the start state 0;
every non-dead state is accepting. -/
def excludeAccepts (excludes : List ByteStr) (w : ByteStr) : Bool :=
  let fd := buildExcludeFsm excludes
  match runFsm fd.1 0 w with
  | some s => !fd.2.contains s
  | none => false

/-- An FSM with a start state and accepting-state flags
(`FSMWithStartEnd` of fsm.h, external). -/
structure FsmSE where
  edges : Fsm
  start : Nat
  isEnd : List Bool

/-- All non-dead states of the exclusion automaton are accepting
(`exclude_is_end` of the source). -/
def buildExcludeFilter (excludes : List ByteStr) : FsmSE :=
  let fd := buildExcludeFsm excludes
  { edges := fd.1, start := 0,
    isEnd := (List.range fd.1.length).map (fun s => !fd.2.contains s) }

/-- Modelled from the spec: `regex_fsm_builder(pattern) → FSM | Error`
is an external collaborator; only its interface is specified.  It is
modelled as a single accepting state with a self loop over every
byte. -/
def regexFsmBuild (_pattern : ByteStr) : Except String FsmSE :=
  .ok { edges := [[⟨0, 255, 0⟩]], start := 0, isEnd := [true] }

/-- Modelled from the spec: `fsm_intersect(a, b) → FSM | Error` is an
external collaborator; it is modelled as the product automaton over
index pairs with intersected byte ranges. -/
def fsmIntersect (a b : FsmSE) : Except String FsmSE :=
  let na := a.edges.length
  let nb := b.edges.length
  .ok
    { edges :=
        (List.range (na * nb)).map (fun s =>
          (getEdges a.edges (s / nb)).flatMap (fun e1 =>
            (getEdges b.edges (s % nb)).filterMap (fun e2 =>
              let lo := Nat.max e1.min e2.min
              let hi := Nat.min e1.max e2.max
              if lo ≤ hi then some ⟨lo, hi, e1.target * nb + e2.target⟩ else none)))
      start := a.start * nb + b.start
      isEnd :=
        (List.range (na * nb)).map (fun s =>
          a.isEnd.getD (s / nb) false && b.isEnd.getD (s % nb) false) }

/-! ### The grammar builder and the converter

The grammar builder is an external collaborator (spec §4.4); it is
modelled from the spec.  Expression ids are write-once handles, so
expressions are modelled as values; only rules (and the fingerprint
cache) live in the converter state.  `AddRuleWithHint` appends a rule
and returns its index; `AddEmptyRuleWithHint` appends a body-less rule;
`UpdateRuleBody` replaces the body of an existing rule. -/

/-- The `TagDispatch` payload handed to the builder. -/
structure TagDispatch where
  tag_rule_pairs : List (ByteStr × Nat)
  stop_eos : Bool
  stop_strs : List ByteStr
  loop_after_dispatch : Bool
  excluded : List ByteStr

/-- Grammar expressions (byte strings, character classes, rule
references, sequences, choices, tag dispatch).  `subGrammarRoot` is the
modelled root of an externally built sub-grammar spliced by
`SubGrammarAdder` (spec §4.4), carrying its source text. -/
inductive GExpr where
  | byteString (s : ByteStr)
  | emptyStr
  | charClass (ranges : List (Nat × Nat))
  | charClassStar (ranges : List (Nat × Nat))
  | ruleRef (id : Nat)
  | gseq (es : List GExpr)
  | gchoices (es : List GExpr)
  | tagDispatch (td : TagDispatch)
  | subGrammarRoot (kind : String) (src : ByteStr)

/-- A rule: name hint and optional body. -/
abbrev GRule := String × Option GExpr

/-- The converter state: the grammar builder's rules and the
fingerprint cache (`fingerprint_to_rule_id_`).  The cache is an
association list whose most recent binding wins, matching
`unordered_map` assignment. -/
structure ConvState where
  rules : List GRule
  cache : List (ByteStr × Nat)

/-- Modelled from the spec: `add_rule(name_hint, body) → rule_id`. -/
def ConvState.addRule (st : ConvState) (hint : String) (body : GExpr) : ConvState × Nat :=
  ({ st with rules := st.rules ++ [(hint, some body)] }, st.rules.length)

/-- Modelled from the spec: `add_empty_rule(name_hint) → rule_id`. -/
def ConvState.addEmptyRule (st : ConvState) (hint : String) : ConvState × Nat :=
  ({ st with rules := st.rules ++ [(hint, none)] }, st.rules.length)

/-- Modelled from the spec: `update_rule_body(rule_id, expr)`. -/
def ConvState.updateRuleBody (st : ConvState) (id : Nat) (body : GExpr) : ConvState :=
  match st.rules.get? id with
  | some r => { st with rules := st.rules.set id (r.1, some body) }
  | none => st

/-- Cache lookup (`fingerprint_to_rule_id_.find`). -/
def lookupCache (cache : List (ByteStr × Nat)) (fp : ByteStr) : Option Nat :=
  (cache.find? (fun p => p.1 = fp)).map (·.2)

/-- `StructuralTagGrammarConverter::IsPrefix`. -/
def prefixMatches (p full : ByteStr) : Bool :=
  decide (p.length ≤ full.length) && decide (full.take p.length = p)

/-- The trigger-matching loop of `VisitSub(TriggeredTagsFormat)`:
`matched_trigger_id` starts at -1 (here `none`); a second match is an
immediate error, no match after the loop is an error. -/
def findMatchedTriggerGo (b : ByteStr) : List ByteStr → Nat → Option Nat → Except String Nat
  | [], _, none => .error "One tag does not match any trigger in a triggered tags format"
  | [], _, some j => .ok j
  | t :: rest, idx, acc =>
    if prefixMatches t b then
      match acc with
      | some _ => .error "One tag matches multiple triggers in a triggered tags format"
      | none => findMatchedTriggerGo b rest (idx + 1) (some idx)
    else findMatchedTriggerGo b rest (idx + 1) acc

/-- Find the unique trigger that is a byte-prefix of a tag's begin. -/
def findMatchedTrigger (triggers : List ByteStr) (b : ByteStr) : Except String Nat :=
  findMatchedTriggerGo b triggers 0 none

/-- An end-string expression: `EmptyStr()` for the empty string, else a
byte string. -/
def endExpr (e : ByteStr) : GExpr :=
  if e = [] then .emptyStr else .byteString e

/-- The per-tag sequence used by the Tag case and all three
TriggeredTags sites: `begin · content-ref · end`, where zero ends omit
the end part, one end is inlined and two or more ends go through an
auxiliary `tag_end` choices rule. -/
def tagSeqExpr (st : ConvState) (beginBytes : ByteStr) (contentId : Nat)
    (ends : List ByteStr) : ConvState × GExpr :=
  match ends with
  | [] => (st, .gseq [.byteString beginBytes, .ruleRef contentId])
  | [e] => (st, .gseq [.byteString beginBytes, .ruleRef contentId, endExpr e])
  | _ =>
    let sr := st.addRule "tag_end" (.gchoices (ends.map (fun e => .gseq [endExpr e])))
    (sr.1, .gseq [.byteString beginBytes, .ruleRef contentId, .ruleRef sr.2])

/-- The converter's filter of `detected_end_strs_` down to its
non-empty members (AnyText, TriggeredTags and TagsWithSeparator
cases). -/
def nonEmptyEnds (ends : List ByteStr) : List ByteStr :=
  ends.filter (fun s => s ≠ [])

/-- First pass of the regex-with-excludes FSM-to-grammar conversion:
one empty `regex_state` rule per product state, returning their ids. -/
def addEmptyRegexRules (st : ConvState) : Nat → ConvState × List Nat
  | 0 => (st, [])
  | n + 1 =>
    let sr := st.addEmptyRule "regex_state"
    let rest := addEmptyRegexRules sr.1 n
    (rest.1, sr.2 :: rest.2)

/-- Second pass body for one product state: an empty-string choice iff
the state is accepting, plus one `CharacterClass · RuleRef` choice per
edge; a state with no choices gets a single empty-string choice. -/
def regexStateBody (prod : FsmSE) (ids : List Nat) (s : Nat) : GExpr :=
  let base : List GExpr :=
    if prod.isEnd.getD s false then [.gseq [.emptyStr]] else []
  let trans : List GExpr :=
    (getEdges prod.edges s).map (fun e =>
      .gseq [.charClass [(e.min, e.max)], .ruleRef (ids.getD e.target 0)])
  let seqs := base ++ trans
  if seqs.isEmpty then .gchoices [.gseq [.emptyStr]] else .gchoices seqs

/-- Second pass: fill in every product state's rule body. -/
def fillRegexRuleBodies (prod : FsmSE) (ids : List Nat) (st : ConvState) : ConvState :=
  (List.range prod.edges.length).foldl
    (fun acc s => acc.updateRuleBody (ids.getD s 0) (regexStateBody prod ids s)) st

/-- The per-tag choice elements of the TriggeredTags special case and
`first` rule: full begin, content ref, end handling as in the Tag
case. -/
def ttChoiceElemsFull (st : ConvState) :
    List (TagFormat × Nat × Nat) → ConvState × List GExpr
  | [] => (st, [])
  | (t, _, cid) :: rest =>
    let se := tagSeqExpr st t.beginOf cid t.endOf
    let r := ttChoiceElemsFull se.1 rest
    (r.1, se.2 :: r.2)

/-- The per-tag choice elements of one trigger's group rule: the
trigger prefix is stripped from the begin string. -/
def ttGroupElems (st : ConvState) (trigLen : Nat) :
    List (TagFormat × Nat × Nat) → ConvState × List GExpr
  | [] => (st, [])
  | (t, _, cid) :: rest =>
    let se := tagSeqExpr st (t.beginOf.drop trigLen) cid t.endOf
    let r := ttGroupElems se.1 trigLen rest
    (r.1, se.2 :: r.2)

/-- Step 3.1 of `VisitSub(TriggeredTagsFormat)`: one
`triggered_tags_group` rule per trigger, over the tags assigned to that
trigger, paired with the trigger for the dispatcher. -/
def ttGroups (st : ConvState) (infos : List (TagFormat × Nat × Nat)) :
    List ByteStr → Nat → ConvState × List (ByteStr × Nat)
  | [], _ => (st, [])
  | trig :: rest, j =>
    let mine := infos.filter (fun i => i.2.1 = j)
    let ge := ttGroupElems st trig.length mine
    let sr := ge.1.addRule "triggered_tags_group" (.gchoices ge.2)
    let r := ttGroups sr.1 infos rest (j + 1)
    (r.1, (trig, sr.2) :: r.2)

/-- Steps 2-3 of `VisitSub(TriggeredTagsFormat)`, after the per-tag
loop: the `at_least_one ∧ stop_after_first` special case emits a plain
selection (wrapped with the detected end strings when present); the
general case emits a `TagDispatch`, preceded by a `first` rule when
`at_least_one` is set. -/
def visitTTRest (st : ConvState) (trigs : List ByteStr) (ex de : List ByteStr)
    (alo saf : Bool) (infos : List (TagFormat × Nat × Nat)) :
    ConvState × Except String Nat :=
  if alo && saf then
    let ce := ttChoiceElemsFull st infos
    if de.isEmpty then
      let sr := ce.1.addRule "triggered_tags" (.gchoices ce.2)
      (sr.1, .ok sr.2)
    else
      let sub := ce.1.addRule "triggered_tags_sub" (.gchoices ce.2)
      match de with
      | [d] =>
        let sr := sub.1.addRule "triggered_tags"
          (.gchoices [.gseq [.ruleRef sub.2, endExpr d]])
        (sr.1, .ok sr.2)
      | _ =>
        let ec := sub.1.addRule "end_choices"
          (.gchoices (de.map (fun d => .gseq [endExpr d])))
        let sr := ec.1.addRule "triggered_tags"
          (.gchoices [.gseq [.ruleRef sub.2, .ruleRef ec.2]])
        (sr.1, .ok sr.2)
  else
    let gr := ttGroups st infos trigs 0
    let td : TagDispatch :=
      if de.isEmpty then ⟨gr.2, true, [], !saf, ex⟩
      else ⟨gr.2, false, nonEmptyEnds de, !saf, ex⟩
    if alo then
      let fe := ttChoiceElemsFull gr.1 infos
      let fr := fe.1.addRule "triggered_tags_first" (.gchoices fe.2)
      let dr := fr.1.addRule "triggered_tags_sub" (.tagDispatch td)
      let sr := dr.1.addRule "triggered_tags"
        (.gchoices [.gseq [.ruleRef fr.2, .ruleRef dr.2]])
      (sr.1, .ok sr.2)
    else
      let sr := gr.1.addRule "triggered_tags" (.tagDispatch td)
      (sr.1, .ok sr.2)

/-- `VisitSub(TagsWithSeparatorFormat)` after the per-tag loop: the
tags rule, the special (non-recursive) case when `stop_after_first` is
set or the separator equals a detected end string and some detected end
is non-empty, else the recursive form with a
`tags_with_separator_sub` rule. -/
def visitTSRest (st : ConvState) (sep : ByteStr) (de : List ByteStr)
    (alo saf : Bool) (tagIds : List Nat) : ConvState × Except String Nat :=
  let ct := st.addRule "tags_with_separator_tags"
    (.gchoices (tagIds.map (fun i => .gseq [.ruleRef i])))
  let st1 := ct.1
  let allTagsId := ct.2
  let endStrs := nonEmptyEnds de
  let hasEnd := !endStrs.isEmpty
  let sepMatch := de.contains sep
  if saf || (hasEnd && sepMatch) then
    let body :=
      if alo then
        if !hasEnd then GExpr.gchoices [.gseq [.ruleRef allTagsId]]
        else .gchoices (endStrs.map (fun e => .gseq [.ruleRef allTagsId, .byteString e]))
      else
        if !hasEnd then .gchoices [.gseq [.ruleRef allTagsId], .emptyStr]
        else .gchoices
          (endStrs.map (fun e => GExpr.gseq [.ruleRef allTagsId, .byteString e]) ++
           endStrs.map (fun e => GExpr.gseq [.byteString e]))
    let sr := st1.addRule "tags_with_separator" body
    (sr.1, .ok sr.2)
  else
    let sub := st1.addEmptyRule "tags_with_separator_sub"
    let endSeq :=
      if !hasEnd then GExpr.emptyStr
      else
        match endStrs with
        | [e] => .gseq [.byteString e]
        | _ => .gchoices (endStrs.map (fun e => .gseq [.byteString e]))
    let subElems :=
      (if sep ≠ [] then [GExpr.byteString sep] else []) ++
        [GExpr.ruleRef allTagsId, GExpr.ruleRef sub.2]
    let st2 := sub.1.updateRuleBody sub.2 (.gchoices [.gseq subElems, endSeq])
    let choices :=
      [GExpr.gseq [.ruleRef allTagsId, .ruleRef sub.2]] ++ (if !alo then [endSeq] else [])
    let sr := st2.addRule "tags_with_separator" (.gchoices choices)
    (sr.1, .ok sr.2)

/-- `StructuralTagGrammarConverter::VisitSub(RegexFormat)`: with no
excludes, splice the externally built regex grammar; otherwise build
the exclusion automaton, intersect with the regex FSM and emit one rule
per product state. -/
def visitRegex (st : ConvState) (p : ByteStr) (ex : List ByteStr) :
    ConvState × Except String Nat :=
  if ex.isEmpty then
    let sr := st.addRule "sub_grammar" (.subGrammarRoot "regex" p)
    (sr.1, .ok sr.2)
  else
    match regexFsmBuild p with
    | .error e => (st, .error ("Failed to build FSM from regex pattern: " ++ e))
    | .ok rfsm =>
      match fsmIntersect rfsm (buildExcludeFilter ex) with
      | .error e =>
          (st, .error ("Failed to compute intersection for regex with excludes: " ++ e))
      | .ok prod =>
        if prod.edges.length = 0 then
          (st, .error "Regex with excludes results in empty language (nothing matches)")
        else
          let sr := addEmptyRegexRules st prod.edges.length
          let st2 := fillRegexRuleBodies prod sr.2 sr.1
          (st2, .ok (sr.2.getD prod.start 0))

/-- The caching tail of `StructuralTagGrammarConverter::Visit`: on a
successful `VisitSub`, record the fingerprint-to-rule-id binding (an
`unordered_map` assignment, which overwrites any binding added
meanwhile). -/
def cacheInsert (fp : ByteStr) : ConvState × Except String Nat → ConvState × Except String Nat
  | (st1, .ok id) => ({ st1 with cache := (fp, id) :: st1.cache }, .ok id)
  | r => r

mutual

/-- `StructuralTagGrammarConverter::VisitSub`, per variant.  Each
recursive visit of a child format goes through the fingerprint cache of
`Visit`: those sites inline the body of `Visit` (`visitFormat` below is
definitionally equal to each such site). -/
def visitSubF (st : ConvState) : Format → ConvState × Except String Nat
  | .constString v =>
    let sr := st.addRule "const_string" (.gchoices [.gseq [.byteString v]])
    (sr.1, .ok sr.2)
  | .jsonSchema s =>
    let sr := st.addRule "sub_grammar" (.subGrammarRoot "json_schema" s)
    (sr.1, .ok sr.2)
  | .qwenXmlParameter s =>
    let sr := st.addRule "sub_grammar" (.subGrammarRoot "qwen_xml" s)
    (sr.1, .ok sr.2)
  | .grammarFormat g =>
    let sr := st.addRule "sub_grammar" (.subGrammarRoot "ebnf" g)
    (sr.1, .ok sr.2)
  | .regexFormat p ex => visitRegex st p ex
  | .anyText ex de =>
    if de.isEmpty then
      let sr := st.addRule "any_text" (.gchoices [.gseq [.charClassStar [(0, 1114111)]]])
      (sr.1, .ok sr.2)
    else
      let sr := st.addRule "any_text"
        (.tagDispatch ⟨[], false, nonEmptyEnds de, false, ex⟩)
      (sr.1, .ok sr.2)
  | .sequence es _ =>
    (match visitElems st es with
     | (st1, .error e) => (st1, .error e)
     | (st1, .ok ids) =>
       let sr := st1.addRule "sequence"
         (.gchoices [.gseq (ids.map (fun i => .ruleRef i))])
       (sr.1, .ok sr.2))
  | .orFormat es _ =>
    (match visitElems st es with
     | (st1, .error e) => (st1, .error e)
     | (st1, .ok ids) =>
       let sr := st1.addRule "or"
         (.gchoices (ids.map (fun i => .gseq [.ruleRef i])))
       (sr.1, .ok sr.2))
  | .tag t => visitSubTag st t
  | .triggeredTags trigs tags ex de alo saf =>
    (match visitTTLoop st trigs tags with
     | (st1, .error e) => (st1, .error e)
     | (st1, .ok infos) => visitTTRest st1 trigs ex de alo saf infos)
  | .tagsWithSeparator tags sep de alo saf =>
    (match visitTSTags st tags with
     | (st1, .error e) => (st1, .error e)
     | (st1, .ok ids) => visitTSRest st1 sep de alo saf ids)

/-- The Tag case of `VisitSub` on the bare `TagFormat`: visit the
content through the cache, then emit the `tag` rule.  It serves both
`Format.tag` and the tags of TagsWithSeparator (whose fingerprint as a
Format is `fingerprintTag`). -/
def visitSubTag (st : ConvState) : TagFormat → ConvState × Except String Nat
  | .mk b c e =>
    (match
      (match lookupCache st.cache (fingerprint c) with
       | some id => (st, Except.ok id)
       | none => cacheInsert (fingerprint c) (visitSubF st c)) with
     | (st1, .error err) => (st1, .error err)
     | (st1, .ok cid) =>
       let se := tagSeqExpr st1 b cid e
       let sr := se.1.addRule "tag" (.gchoices [se.2])
       (sr.1, .ok sr.2))

/-- The Sequence/Or element loop: visit each element (through the
cache) and collect the resulting rule ids. -/
def visitElems (st : ConvState) : FormatList → ConvState × Except String (List Nat)
  | .nil => (st, .ok [])
  | .cons e rest =>
    (match
      (match lookupCache st.cache (fingerprint e) with
       | some id => (st, Except.ok id)
       | none => cacheInsert (fingerprint e) (visitSubF st e)) with
     | (st1, .error err) => (st1, .error err)
     | (st1, .ok id) =>
       match visitElems st1 rest with
       | (st2, .error err) => (st2, .error err)
       | (st2, .ok ids) => (st2, .ok (id :: ids)))

/-- Step 1 of `VisitSub(TriggeredTagsFormat)`: per tag, find its unique
matching trigger, then convert its content (through the cache); collect
`(tag, trigger index, content rule id)` in tag order. -/
def visitTTLoop (st : ConvState) (triggers : List ByteStr) :
    TagList → ConvState × Except String (List (TagFormat × Nat × Nat))
  | .nil => (st, .ok [])
  | .cons (.mk b c e) rest =>
    match findMatchedTrigger triggers b with
    | .error err => (st, .error err)
    | .ok j =>
      match
        (match lookupCache st.cache (fingerprint c) with
         | some id => (st, Except.ok id)
         | none => cacheInsert (fingerprint c) (visitSubF st c)) with
      | (st1, .error err) => (st1, .error err)
      | (st1, .ok cid) =>
        match visitTTLoop st1 triggers rest with
        | (st2, .error err) => (st2, .error err)
        | (st2, .ok tail) => (st2, .ok ((TagFormat.mk b c e, j, cid) :: tail))

/-- Step 1 of `VisitSub(TagsWithSeparatorFormat)`: visit each tag as a
Format (hence through the fingerprint cache) and collect the rule
ids. -/
def visitTSTags (st : ConvState) : TagList → ConvState × Except String (List Nat)
  | .nil => (st, .ok [])
  | .cons t rest =>
    (match
      (match lookupCache st.cache (fingerprintTag t) with
       | some id => (st, Except.ok id)
       | none => cacheInsert (fingerprintTag t) (visitSubTag st t)) with
     | (st1, .error e) => (st1, .error e)
     | (st1, .ok id) =>
       match visitTSTags st1 rest with
       | (st2, .error e) => (st2, .error e)
       | (st2, .ok ids) => (st2, .ok (id :: ids)))

end

/-- `StructuralTagGrammarConverter::Visit`: compute the fingerprint,
return the cached rule id on a hit, otherwise dispatch to `VisitSub`
and cache the resulting id.  Every recursive visit site of the mutual
block above is definitionally equal to this function. -/
def visitFormat (st : ConvState) (f : Format) : ConvState × Except String Nat :=
  match lookupCache st.cache (fingerprint f) with
  | some id => (st, .ok id)
  | none => cacheInsert (fingerprint f) (visitSubF st f)

/-- `StructuralTagGrammarConverter::Convert` +
`AddRootRuleAndGetGrammar`: convert the format from an empty state and
wrap the result in a `root` rule. -/
def convertStructuralTag (f : Format) : Except String (List GRule) :=
  match visitFormat ⟨[], []⟩ f with
  | (_, .error e) => .error e
  | (st, .ok id) =>
    let sr := st.addRule "root" (.gchoices [.gseq [.ruleRef id]])
    .ok sr.1.rules

/-! ### Claim-side predicates over the AST -/

/-- Is the list empty? -/
def FormatList.isNilF : FormatList → Bool
  | .nil => true
  | .cons _ _ => false

/-- All non-last elements of the list are limited. -/
def nonLastLimited : FormatList → Bool
  | .nil => true
  | .cons e rest => (rest.isNilF || !isUnlimited e) && nonLastLimited rest

/-- Every element is unlimited. -/
def allUnlimitedFL : FormatList → Bool
  | .nil => true
  | .cons e rest => isUnlimited e && allUnlimitedFL rest

/-- Every element is limited. -/
def allLimitedFL : FormatList → Bool
  | .nil => true
  | .cons e rest => !isUnlimited e && allLimitedFL rest

mutual

/-- The unlimited-placement invariant of the spec: in every Sequence
all non-last elements are limited, and every Or has all of its elements
unlimited or none of them. -/
def validU : Format → Bool
  | .sequence es _ => nonLastLimited es && validUList es
  | .orFormat es _ => (allUnlimitedFL es || allLimitedFL es) && validUList es
  | .tag (.mk _ c _) => validU c
  | .triggeredTags _ tags _ _ _ _ => validUTags tags
  | .tagsWithSeparator tags _ _ _ _ => validUTags tags
  | _ => true

def validUList : FormatList → Bool
  | .nil => true
  | .cons e rest => validU e && validUList rest

def validUTags : TagList → Bool
  | .nil => true
  | .cons (.mk _ c _) rest => validU c && validUTags rest

end

/-- The `detected_end_strs_` annotation of a format (empty for
variants without one). -/
def detectedOf : Format → List ByteStr
  | .anyText _ d => d
  | .triggeredTags _ _ _ d _ _ => d
  | .tagsWithSeparator _ _ d _ _ => d
  | _ => []

mutual

/-- The end-carrier descendants of a format: the AnyText,
TriggeredTags and TagsWithSeparator nodes reachable from it through
last elements of Sequences and elements of Ors only (the nodes whose
`detected_end_strs_` the analyzer must fill from the nearest enclosing
Tag). -/
def carriers : Format → List Format
  | .anyText ex de => [.anyText ex de]
  | .triggeredTags a b c d e f => [.triggeredTags a b c d e f]
  | .tagsWithSeparator a b c d e => [.tagsWithSeparator a b c d e]
  | .sequence es _ => carriersLast es
  | .orFormat es _ => carriersList es
  | _ => []

def carriersLast : FormatList → List Format
  | .nil => []
  | .cons e .nil => carriers e
  | .cons _ (.cons e2 rest) => carriersLast (.cons e2 rest)

def carriersList : FormatList → List Format
  | .nil => []
  | .cons e rest => carriers e ++ carriersList rest

end

mutual

/-- All AnyText nodes of a format, as their
`(excluded_strs, detected_end_strs)` pairs. -/
def anyTextsOf : Format → List (List ByteStr × List ByteStr)
  | .anyText ex de => [(ex, de)]
  | .sequence es _ => anyTextsList es
  | .orFormat es _ => anyTextsList es
  | .tag (.mk _ c _) => anyTextsOf c
  | .triggeredTags _ tags _ _ _ _ => anyTextsTags tags
  | .tagsWithSeparator tags _ _ _ _ => anyTextsTags tags
  | _ => []

def anyTextsList : FormatList → List (List ByteStr × List ByteStr)
  | .nil => []
  | .cons e rest => anyTextsOf e ++ anyTextsList rest

def anyTextsTags : TagList → List (List ByteStr × List ByteStr)
  | .nil => []
  | .cons (.mk _ c _) rest => anyTextsOf c ++ anyTextsTags rest

end

/-- Modelled from the spec: "speculatively attempt each variant in
this fixed order... Return the first that succeeds. Fail if none
succeeds." -/
def firstSuccess (cands : List (Except String Format)) (dflt : Except String Format) :
    Except String Format :=
  match cands with
  | [] => dflt
  | c :: rest =>
    match c with
    | .ok f => .ok f
    | .error _ => firstSuccess rest dflt

/-! ### Concrete formats used in counterexamples -/

/-- A TriggeredTags whose single tag's begin string does not start with
its single trigger. -/
def innerTTc6 : Format :=
  .triggeredTags [[60]]
    (TagList.ofList [.mk [122, 122, 122] (.constString [99]) [[101]]]) [] [] false false

/-- A TriggeredTags whose single tag matches its single trigger but
whose content is the failing `innerTTc6`. -/
def outerTTc6 : Format :=
  .triggeredTags [[60]]
    (TagList.ofList [.mk [60, 97, 62] innerTTc6 [[101]]]) [] [] false false

/-- A TagsWithSeparator (separator `s`, end `e`) whose fingerprint is
the lossy `TS:s:0,0`. -/
def innerTS : Format :=
  .tagsWithSeparator (TagList.ofList [.mk [100] (.constString [99]) [[102]]])
    [115] [[101]] false false

/-- A tag whose content is `innerTS`. -/
def tagC : TagFormat := .mk [99] innerTS []

/-- A TagsWithSeparator around `tagC` with the same separator `s` and
end `z`: its fingerprint collides with `innerTS`'s. -/
def outerTS : Format := .tagsWithSeparator (TagList.ofList [tagC]) [115] [[122]] false false

/-- A tag whose content is `outerTS` (which contains `innerTS`). -/
def tagA : TagFormat := .mk [65] outerTS []

/-- A second tag whose content is literally `innerTS` again. -/
def tagB : TagFormat := .mk [66] innerTS []

/-- A sequence visiting `tagA` (hence `innerTS` deep inside) first and
`tagB` (content `innerTS`) second. -/
def rootCE : Format := .sequence (FormatList.ofList [.tag tagA, .tag tagB]) false

/-- Claim-side discriminator for the root choices of a
TagsWithSeparator rule: is this choice a tag alternative, i.e. a
sequence starting with a reference to the tags rule? -/
def isTagAlt (tagsId : Nat) : GExpr → Bool
  | .gseq (.ruleRef i :: _) => i = tagsId
  | _ => false

/-! ### C1 definitions: extension order, trie well-formedness, the
sequential copy selection -/

/-- Transition-extension order on FSMs: every defined transition of the
first is a transition of the second. -/
def fsmLe (f1 f2 : Fsm) : Prop :=
  ∀ s b t, getNextState f1 s b = some t → getNextState f2 s b = some t

/-- Edge well-formedness for a trie of `len` states: single-byte edges
into states `1 ≤ target < len`. -/
def edgesWF (len : Nat) (edges : List FSMEdge) : Prop :=
  ∀ e ∈ edges, e.min = e.max ∧ 1 ≤ e.target ∧ e.target < len

/-- Well-formedness of the exclusion trie: non-empty, single-byte
bounded edges, and at most one incoming edge per state. -/
def trieWF (fsm : Fsm) : Prop :=
  0 < fsm.length ∧
  (∀ s, edgesWF fsm.length (getEdges fsm s)) ∧
  (∀ s1 s2 e1 e2, e1 ∈ getEdges fsm s1 → e2 ∈ getEdges fsm s2 →
    e1.target = e2.target → s1 = s2 ∧ e1 = e2)

/-- The copying loop of step 2 as a selection function: keep each start
edge whose byte is not yet covered, accumulating covered bytes. -/
def copySel : List FSMEdge → List Nat → List FSMEdge
  | [], _ => []
  | se :: rest, cov =>
    if cov.contains se.min then copySel rest cov
    else se :: copySel rest (cov ++ [se.min])

/-! ## Theorems -/

/-! ### C2: what the fingerprint does and does not identify -/

/-- The first two bytes of a fingerprint are the variant code. -/
theorem fingerprint_take_two (f : Format) :
    (fingerprint f).take 2 = variantCode (variantTag f) := by
  cases f
  case tag t => cases t; rfl
  all_goals rfl

/-- Every variant index is at most 10. -/
theorem variantTag_le (f : Format) : variantTag f ≤ 10 := by
  cases f <;> simp [variantTag]

/-- The variant codes are pairwise distinct. -/
theorem variantCode_inj (m n : Nat) (hm : m ≤ 10) (hn : n ≤ 10)
    (h : variantCode m = variantCode n) : m = n := by
  interval_cases m <;> interval_cases n <;> simp_all [variantCode]

/-- C2 (counterexample): the fingerprint does not uniquely identify the
structural shape: the AnyText formats with excluded strings
`["a", "b"]` and `["a|b"]` (both with detected end `"x"`) share the
fingerprint `AT:a|b|E:x|` yet are different subtrees (and they lower to
TagDispatch rules with different excluded-substring lists). -/
theorem c2_fingerprint_not_injective :
    fingerprint (.anyText [[97], [98]] [[120]]) =
      fingerprint (.anyText [[97, 124, 98]] [[120]]) ∧
    Format.anyText [[97], [98]] [[120]] ≠ Format.anyText [[97, 124, 98]] [[120]] := by
  exact ⟨by decide, by decide⟩

/-- C2 (amended): equal fingerprints do imply the same top-level
variant (the two leading bytes identify the constructor), but not the
same structural shape: distinct subtrees can share a key, so a
fingerprint hit can reuse the rule of a structurally different
subtree. -/
theorem c2_fingerprint_determines_variant (f g : Format)
    (h : fingerprint f = fingerprint g) : variantTag f = variantTag g := by
  have h2 := congrArg (List.take 2) h
  rw [fingerprint_take_two, fingerprint_take_two] at h2
  exact variantCode_inj _ _ (variantTag_le f) (variantTag_le g) h2

/-- Witness for `c2_fingerprint_determines_variant` at a concrete
input. -/
theorem c2_fingerprint_determines_variant_witness :
    variantTag (.constString [97]) = variantTag (.constString [97]) :=
  c2_fingerprint_determines_variant (.constString [97]) (.constString [97]) rfl

/-! ### C7 / C9: the speculative inference order of the parser -/

/-- A successful `ParseConstStringFormat` yields a ConstString. -/
theorem parseConstStringFormat_variant {o : List (String × JVal)} {f : Format}
    (h : parseConstStringFormat o = .ok f) : variantTag f = 0 := by
  simp only [parseConstStringFormat] at h
  repeat any_goals split at h
  all_goals simp_all [variantTag]
  all_goals (subst h; rfl)

/-- A successful `ParseJSONSchemaFormat` yields a JSONSchema. -/
theorem parseJSONSchemaFormat_variant {o : List (String × JVal)} {f : Format}
    (h : parseJSONSchemaFormat o = .ok f) : variantTag f = 1 := by
  simp only [parseJSONSchemaFormat] at h
  repeat any_goals split at h
  all_goals simp_all [variantTag]
  all_goals (subst h; rfl)

/-- A successful `ParseAnyTextFormat` yields an AnyText. -/
theorem parseAnyTextFormat_variant {o : List (String × JVal)} {f : Format}
    (h : parseAnyTextFormat o = .ok f) : variantTag f = 3 := by
  simp only [parseAnyTextFormat] at h
  repeat any_goals split at h
  all_goals simp_all [variantTag]
  all_goals (subst h; rfl)

/-- A successful `ParseSequenceFormat` yields a Sequence. -/
theorem parseSequenceFormat_variant {n : Nat} {o : List (String × JVal)} {f : Format}
    (h : parseSequenceFormat n o = .ok f) : variantTag f = 6 := by
  simp only [parseSequenceFormat] at h
  repeat any_goals split at h
  all_goals simp_all [variantTag]
  all_goals (subst h; rfl)

/-- A successful `ParseOrFormat` yields an Or. -/
theorem parseOrFormat_variant {n : Nat} {o : List (String × JVal)} {f : Format}
    (h : parseOrFormat n o = .ok f) : variantTag f = 7 := by
  simp only [parseOrFormat] at h
  repeat any_goals split at h
  all_goals simp_all [variantTag]
  all_goals (subst h; rfl)

/-- A successful `ParseTriggeredTagsFormat` yields a TriggeredTags. -/
theorem parseTriggeredTagsFormat_variant {n : Nat} {o : List (String × JVal)} {f : Format}
    (h : parseTriggeredTagsFormat n o = .ok f) : variantTag f = 9 := by
  simp only [parseTriggeredTagsFormat] at h
  repeat any_goals split at h
  all_goals simp_all [variantTag]
  all_goals (subst h; rfl)

/-- A successful `ParseTagsWithSeparatorFormat` yields a
TagsWithSeparator. -/
theorem parseTagsWithSeparatorFormat_variant {n : Nat} {o : List (String × JVal)} {f : Format}
    (h : parseTagsWithSeparatorFormat n o = .ok f) : variantTag f = 10 := by
  simp only [parseTagsWithSeparatorFormat] at h
  repeat any_goals split at h
  all_goals simp_all [variantTag]
  all_goals (subst h; rfl)

/-- A successful `firstSuccess` result is one of the candidates (or
the default). -/
theorem firstSuccess_mem (cands : List (Except String Format)) (dflt : Except String Format)
    (f : Format) (h : firstSuccess cands dflt = .ok f) :
    Except.ok f ∈ cands ∨ dflt = .ok f := by
  induction cands with
  | nil => right; simpa [firstSuccess] using h
  | cons c rest ih =>
    simp only [firstSuccess] at h
    cases c with
    | ok g =>
      left
      simp only [Except.ok.injEq] at h
      simp [h]
    | error e =>
      rcases ih h with hm | hd
      · left; exact List.mem_cons_of_mem _ hm
      · right; exact hd

/-- C7: with no `type` field, `ParseFormat` attempts exactly Tag,
ConstString, JSONSchema, AnyText, Sequence, Or, TriggeredTags,
TagsWithSeparator in this order, returns the first success (failing
when none succeeds), and the inferred variant is never
QwenXMLParameter (2), Grammar (4) or Regex (5). -/
theorem c7_inference_order (n : Nat) (o : List (String × JVal))
    (hty : jfind o "type" = none) :
    parseFormat (n + 1) (.jobj o) =
      firstSuccess
        [(parseTagFormatO n o).map Format.tag,
         parseConstStringFormat o,
         parseJSONSchemaFormat o,
         parseAnyTextFormat o,
         parseSequenceFormat n o,
         parseOrFormat n o,
         parseTriggeredTagsFormat n o,
         parseTagsWithSeparatorFormat n o]
        (.error "Invalid format") ∧
    (∀ f, parseFormat (n + 1) (.jobj o) = .ok f →
      variantTag f ≠ 2 ∧ variantTag f ≠ 4 ∧ variantTag f ≠ 5) := by
  have hmain : parseFormat (n + 1) (.jobj o) =
      firstSuccess
        [(parseTagFormatO n o).map Format.tag,
         parseConstStringFormat o,
         parseJSONSchemaFormat o,
         parseAnyTextFormat o,
         parseSequenceFormat n o,
         parseOrFormat n o,
         parseTriggeredTagsFormat n o,
         parseTagsWithSeparatorFormat n o]
        (.error "Invalid format") := by
    simp only [parseFormat, hty]
    cases h1 : parseTagFormatO n o <;> simp [h1, firstSuccess, Except.map]
  refine ⟨hmain, fun f hf => ?_⟩
  rw [hmain] at hf
  rcases firstSuccess_mem _ _ _ hf with hm | hd
  · simp only [List.mem_cons, List.not_mem_nil, or_false] at hm
    rcases hm with h | h | h | h | h | h | h | h
    all_goals first
      | (rcases hx : parseTagFormatO n o with e | t <;> rw [hx] at h <;>
          simp only [Except.map] at h <;> simp_all [variantTag]
         done)
      | (replace h := h.symm
         first
          | (have hv := parseConstStringFormat_variant h; omega)
          | (have hv := parseJSONSchemaFormat_variant h; omega)
          | (have hv := parseAnyTextFormat_variant h; omega)
          | (have hv := parseSequenceFormat_variant h; omega)
          | (have hv := parseOrFormat_variant h; omega)
          | (have hv := parseTriggeredTagsFormat_variant h; omega)
          | (have hv := parseTagsWithSeparatorFormat_variant h; omega))
  · exact absurd hd (by simp)

/-- Witness for `c7_inference_order` at a concrete input: the typeless
object with a `value` field is inferred as a ConstString (Tag fails,
ConstString succeeds). -/
theorem c7_inference_order_witness :
    parseFormat 1 (.jobj [("value", .jstr [97])]) =
      firstSuccess
        [(parseTagFormatO 0 [("value", .jstr [97])]).map Format.tag,
         parseConstStringFormat [("value", .jstr [97])],
         parseJSONSchemaFormat [("value", .jstr [97])],
         parseAnyTextFormat [("value", .jstr [97])],
         parseSequenceFormat 0 [("value", .jstr [97])],
         parseOrFormat 0 [("value", .jstr [97])],
         parseTriggeredTagsFormat 0 [("value", .jstr [97])],
         parseTagsWithSeparatorFormat 0 [("value", .jstr [97])]]
        (.error "Invalid format") ∧
    (∀ f, parseFormat 1 (.jobj [("value", .jstr [97])]) = .ok f →
      variantTag f ≠ 2 ∧ variantTag f ≠ 4 ∧ variantTag f ≠ 5) :=
  c7_inference_order 0 [("value", .jstr [97])] rfl

/-- C9: an object with neither `type` nor `excludes` is rejected by
the AnyText variant parser, so AnyText is never speculatively inferred
without an `excludes` field; in particular the typeless empty object
`\x7b\x7d` fails to parse as any Format, while an explicit
`"type": "any_text"` with no `excludes` parses to an AnyText with an
empty excluded-strings list. -/
theorem c9_anytext_inference (n : Nat) :
    (∀ o : List (String × JVal), jfind o "excludes" = none → jfind o "type" = none →
      parseAnyTextFormat o = .error "Any text format should not have any fields other than type") ∧
    parseFormat (n + 1) (.jobj []) = .error "Invalid format" ∧
    parseFormat (n + 1) (.jobj [("type", .jstr (strBytes "any_text"))]) =
      .ok (.anyText [] []) := by
  refine ⟨fun o h1 h2 => ?_, ?_, ?_⟩
  · simp [parseAnyTextFormat, h1, h2]
  · simp [parseFormat, parseTagFormatO, parseConstStringFormat, parseJSONSchemaFormat,
      parseAnyTextFormat, parseSequenceFormat, parseOrFormat, parseTriggeredTagsFormat,
      parseTagsWithSeparatorFormat, jfind]
  · simp [parseFormat, parseAnyTextFormat, jfind, strBytes]

/-- Witness for `c9_anytext_inference` at concrete inputs. -/
theorem c9_anytext_inference_witness :
    parseAnyTextFormat [("other", .jnull)] =
      .error "Any text format should not have any fields other than type" ∧
    parseFormat 1 (.jobj []) = .error "Invalid format" ∧
    parseFormat 1 (.jobj [("type", .jstr (strBytes "any_text"))]) = .ok (.anyText [] []) :=
  ⟨(c9_anytext_inference 0).1 [("other", .jnull)] rfl rfl,
   (c9_anytext_inference 0).2.1, (c9_anytext_inference 0).2.2⟩

/-! ### C4: the unlimited-placement invariant of the analyzer -/

mutual

/-- Every format the analyzer returns satisfies the
unlimited-placement invariant. -/
theorem analyzeFormat_validU : ∀ (stack : List Format) (f f' : Format),
    analyzeFormat stack f = .ok f' → validU f' = true
  | _, .constString _, _, h => by
    simp only [analyzeFormat, Except.ok.injEq] at h; subst h; rfl
  | _, .jsonSchema _, _, h => by
    simp only [analyzeFormat, Except.ok.injEq] at h; subst h; rfl
  | _, .qwenXmlParameter _, _, h => by
    simp only [analyzeFormat, Except.ok.injEq] at h; subst h; rfl
  | _, .grammarFormat _, _, h => by
    simp only [analyzeFormat, Except.ok.injEq] at h; subst h; rfl
  | _, .regexFormat _ _, _, h => by
    simp only [analyzeFormat, Except.ok.injEq] at h; subst h; rfl
  | _, .anyText _ _, _, h => by
    simp only [analyzeFormat, Except.ok.injEq] at h; subst h; rfl
  | stack, .sequence es u, f', h => by
    simp only [analyzeFormat] at h
    split at h
    · exact absurd h (by simp)
    next es' lastU heq =>
      simp only [Except.ok.injEq] at h
      subst h
      have hrec := analyzeSeqElems_validU (Format.sequence es u :: stack) es es' lastU heq
      simp [validU, hrec.1, hrec.2.1]
  | stack, .orFormat es u, f', h => by
    simp only [analyzeFormat] at h
    split at h
    · exact absurd h (by simp)
    next es' anyU allU heq =>
      split at h
      · exact absurd h (by simp)
      next hcond =>
        simp only [Except.ok.injEq] at h
        subst h
        obtain ⟨h1, h2, h3⟩ :=
          analyzeOrElems_validU (Format.orFormat es u :: stack) es es' anyU allU heq
        simp only [validU, h1, Bool.and_true]
        subst h2; subst h3
        cases hl : allLimitedFL es' <;> cases hu : allUnlimitedFL es' <;> simp_all
  | stack, .tag t, f', h => by
    simp only [analyzeFormat] at h
    split at h
    · exact absurd h (by simp)
    next t' heq =>
      simp only [Except.ok.injEq] at h
      subst h
      have hrec := analyzeTag_validU stack t t' heq
      obtain ⟨b, c, e⟩ := t'
      simpa [validU, TagFormat.contentOf] using hrec
  | stack, .triggeredTags trigs tags ex de alo saf, f', h => by
    simp only [analyzeFormat] at h
    split at h
    · exact absurd h (by simp)
    next tags' heq =>
      simp only [Except.ok.injEq] at h
      subst h
      simpa [validU] using analyzeTagList_validU _ tags tags' heq
  | stack, .tagsWithSeparator tags sep de alo saf, f', h => by
    simp only [analyzeFormat] at h
    split at h
    · exact absurd h (by simp)
    next tags' heq =>
      simp only [Except.ok.injEq] at h
      subst h
      simpa [validU] using analyzeTagList_validU _ tags tags' heq
  termination_by stack f => 2 * sizeOf f + 1
  decreasing_by
  all_goals simp_wf
  all_goals try simp
  all_goals try omega

/-- The analyzed content of a tag satisfies the invariant. -/
theorem analyzeTag_validU : ∀ (stack : List Format) (t t' : TagFormat),
    analyzeTag stack t = .ok t' → validU t'.contentOf = true
  | stack, .mk b c e, t', h => by
    simp only [analyzeTag] at h
    split at h
    · exact absurd h (by simp)
    next c' heq =>
      have hv := analyzeFormat_validU (Format.tag (.mk b c e) :: stack) c c' heq
      split at h
      · split at h
        · simp only [Except.ok.injEq] at h
          subst h
          simpa [TagFormat.contentOf] using hv
        · exact absurd h (by simp)
      · simp only [Except.ok.injEq] at h
        subst h
        simpa [TagFormat.contentOf] using hv
  termination_by stack t => 2 * sizeOf t
  decreasing_by
  all_goals simp_wf
  all_goals try simp
  all_goals try omega

/-- The analyzed sequence elements satisfy the invariant: all valid,
non-last ones limited, and the result is never empty. -/
theorem analyzeSeqElems_validU : ∀ (stack : List Format) (es es' : FormatList) (u : Bool),
    analyzeSeqElems stack es = .ok (es', u) →
      validUList es' = true ∧ nonLastLimited es' = true ∧ es' ≠ .nil
  | stack, .nil, es', u, h => absurd h (by simp [analyzeSeqElems])
  | stack, .cons e .nil, es', u, h => by
    simp only [analyzeSeqElems] at h
    split at h
    · exact absurd h (by simp)
    next e' heq =>
      simp only [Except.ok.injEq, Prod.mk.injEq] at h
      obtain ⟨h1, _⟩ := h
      subst h1
      have hv := analyzeFormat_validU stack e e' heq
      simp [validUList, nonLastLimited, FormatList.isNilF, hv]
  | stack, .cons e (.cons e2 rest2), es', u, h => by
    simp only [analyzeSeqElems] at h
    split at h
    · exact absurd h (by simp)
    next e' heq =>
      split at h
      · exact absurd h (by simp)
      next hlim =>
        split at h
        · exact absurd h (by simp)
        next rest' u2 heq2 =>
          simp only [Except.ok.injEq, Prod.mk.injEq] at h
          obtain ⟨h1, _⟩ := h
          subst h1
          have hv := analyzeFormat_validU stack e e' heq
          have hrec := analyzeSeqElems_validU stack (FormatList.cons e2 rest2) rest' u2 heq2
          have hlim' : isUnlimited e' = false := by simpa using hlim
          have hnil : rest'.isNilF = false := by
            cases rest' with
            | nil => exact absurd rfl hrec.2.2
            | cons a b => rfl
          exact ⟨by simp [validUList, hv, hrec.1],
            by simp [nonLastLimited, hnil, hlim', hrec.2.1], by simp⟩
  termination_by stack es => 2 * sizeOf es
  decreasing_by
  all_goals simp_wf
  all_goals try simp
  all_goals try omega

/-- The analyzed or-elements are valid, and the accumulated flags are
exactly "some element is unlimited" and "all elements are
unlimited". -/
theorem analyzeOrElems_validU : ∀ (stack : List Format) (es es' : FormatList) (anyU allU : Bool),
    analyzeOrElems stack es = .ok (es', anyU, allU) →
      validUList es' = true ∧ anyU = !allLimitedFL es' ∧ allU = allUnlimitedFL es'
  | stack, .nil, es', anyU, allU, h => by
    simp only [analyzeOrElems, Except.ok.injEq, Prod.mk.injEq] at h
    obtain ⟨h1, h2, h3⟩ := h
    subst h1; subst h2; subst h3
    simp [validUList, allLimitedFL, allUnlimitedFL]
  | stack, .cons e rest, es', anyU, allU, h => by
    simp only [analyzeOrElems] at h
    split at h
    · exact absurd h (by simp)
    next e' heq =>
      split at h
      · exact absurd h (by simp)
      next rest' a2 l2 heq2 =>
        simp only [Except.ok.injEq, Prod.mk.injEq] at h
        obtain ⟨h1, h2, h3⟩ := h
        subst h1; subst h2; subst h3
        have hv := analyzeFormat_validU stack e e' heq
        have hrec := analyzeOrElems_validU stack rest rest' a2 l2 heq2
        refine ⟨by simp [validUList, hv, hrec.1], ?_, ?_⟩
        · rw [hrec.2.1]
          simp only [allLimitedFL, Bool.not_and, Bool.not_not]
        · rw [hrec.2.2]
          simp only [allUnlimitedFL]
  termination_by stack es => 2 * sizeOf es
  decreasing_by
  all_goals simp_wf
  all_goals try simp
  all_goals try omega

/-- The analyzed tags of TriggeredTags/TagsWithSeparator satisfy the
invariant. -/
theorem analyzeTagList_validU : ∀ (stack : List Format) (tl tl' : TagList),
    analyzeTagList stack tl = .ok tl' → validUTags tl' = true
  | stack, .nil, tl', h => by
    simp only [analyzeTagList, Except.ok.injEq] at h; subst h; rfl
  | stack, .cons t rest, tl', h => by
    simp only [analyzeTagList] at h
    split at h
    · exact absurd h (by simp)
    next t' heq =>
      split at h
      · exact absurd h (by simp)
      next rest' heq2 =>
        simp only [Except.ok.injEq] at h
        subst h
        have hc := analyzeTag_validU stack t t' heq
        have hrec := analyzeTagList_validU stack rest rest' heq2
        obtain ⟨b, c, e⟩ := t'
        simp only [TagFormat.contentOf] at hc
        simp [validUTags, hc, hrec]
  termination_by stack tl => 2 * sizeOf tl
  decreasing_by
  all_goals simp_wf
  all_goals try simp
  all_goals try omega

end

/-- C4: whenever analysis succeeds, every Sequence of the result has
all non-last elements limited and every Or has all elements unlimited
or none (with `isUnlimited` being: AnyText, TriggeredTags,
TagsWithSeparator always unlimited, Sequence/Or by their derived flag,
all other variants limited); contrapositively, analysis fails with an
error whenever a Sequence has an unlimited non-last element or an Or
mixes limited and unlimited elements. -/
theorem c4_unlimited_placement (stack : List Format) (f f' : Format)
    (h : analyzeFormat stack f = .ok f') : validU f' = true :=
  analyzeFormat_validU stack f f' h

/-- Witness for `c4_unlimited_placement` at a concrete input. -/
theorem c4_unlimited_placement_witness : validU (.constString [97]) = true :=
  c4_unlimited_placement [] (.constString [97]) (.constString [97])
    (by simp [analyzeFormat])

/-! ### C5: tag end clearing and the detected end strings -/

mutual

/-- Every end-carrier descendant of an analyzed format has its
`detected_end_strs_` equal to the end strings of the nearest enclosing
Tag frame of the stack. -/
theorem analyzeFormat_carriers : ∀ (stack : List Format) (f f' : Format),
    analyzeFormat stack f = .ok f' →
    ∀ c ∈ carriers f', detectedOf c = detectEndStrings stack
  | _, .constString _, _, h => by
    simp only [analyzeFormat, Except.ok.injEq] at h; subst h; simp [carriers]
  | _, .jsonSchema _, _, h => by
    simp only [analyzeFormat, Except.ok.injEq] at h; subst h; simp [carriers]
  | _, .qwenXmlParameter _, _, h => by
    simp only [analyzeFormat, Except.ok.injEq] at h; subst h; simp [carriers]
  | _, .grammarFormat _, _, h => by
    simp only [analyzeFormat, Except.ok.injEq] at h; subst h; simp [carriers]
  | _, .regexFormat _ _, _, h => by
    simp only [analyzeFormat, Except.ok.injEq] at h; subst h; simp [carriers]
  | stack, .anyText ex de, f', h => by
    simp only [analyzeFormat, Except.ok.injEq] at h; subst h
    intro c hc
    simp only [carriers, List.mem_singleton] at hc
    subst hc
    simp [detectedOf, detectEndStrings]
  | stack, .sequence es u, f', h => by
    simp only [analyzeFormat] at h
    split at h
    · exact absurd h (by simp)
    next es' lastU heq =>
      simp only [Except.ok.injEq] at h; subst h
      intro c hc
      simp only [carriers] at hc
      have hr := analyzeSeqElems_carriers (Format.sequence es u :: stack) es es' lastU heq c hc
      simpa [detectEndStrings] using hr
  | stack, .orFormat es u, f', h => by
    simp only [analyzeFormat] at h
    split at h
    · exact absurd h (by simp)
    next es' anyU allU heq =>
      split at h
      · exact absurd h (by simp)
      next hcond =>
        simp only [Except.ok.injEq] at h; subst h
        intro c hc
        simp only [carriers] at hc
        have hr := analyzeOrElems_carriers (Format.orFormat es u :: stack) es es' anyU allU heq c hc
        simpa [detectEndStrings] using hr
  | stack, .tag t, f', h => by
    simp only [analyzeFormat] at h
    split at h
    · exact absurd h (by simp)
    next t' heq =>
      simp only [Except.ok.injEq] at h; subst h
      intro c hc
      simp [carriers] at hc
  | stack, .triggeredTags trigs tags ex de alo saf, f', h => by
    simp only [analyzeFormat] at h
    split at h
    · exact absurd h (by simp)
    next tags' heq =>
      simp only [Except.ok.injEq] at h; subst h
      intro c hc
      simp only [carriers, List.mem_singleton] at hc
      subst hc
      simp [detectedOf, detectEndStrings]
  | stack, .tagsWithSeparator tags sep de alo saf, f', h => by
    simp only [analyzeFormat] at h
    split at h
    · exact absurd h (by simp)
    next tags' heq =>
      simp only [Except.ok.injEq] at h; subst h
      intro c hc
      simp only [carriers, List.mem_singleton] at hc
      subst hc
      simp [detectedOf, detectEndStrings]
  termination_by stack f => 2 * sizeOf f + 1
  decreasing_by
    all_goals simp_wf
    all_goals try simp
    all_goals try omega

/-- Carrier version of the sequence-elements lemma: only the last
element contributes carriers. -/
theorem analyzeSeqElems_carriers : ∀ (stack : List Format) (es es' : FormatList) (u : Bool),
    analyzeSeqElems stack es = .ok (es', u) →
    ∀ c ∈ carriersLast es', detectedOf c = detectEndStrings stack
  | _, .nil, _, _, h => absurd h (by simp [analyzeSeqElems])
  | stack, .cons e .nil, es', u, h => by
    simp only [analyzeSeqElems] at h
    split at h
    · exact absurd h (by simp)
    next e' heq =>
      simp only [Except.ok.injEq, Prod.mk.injEq] at h
      obtain ⟨h1, _⟩ := h
      subst h1
      intro c hc
      simp only [carriersLast] at hc
      exact analyzeFormat_carriers stack e e' heq c hc
  | stack, .cons e (.cons e2 rest2), es', u, h => by
    simp only [analyzeSeqElems] at h
    split at h
    · exact absurd h (by simp)
    next e' heq =>
      split at h
      · exact absurd h (by simp)
      next hlim =>
        split at h
        · exact absurd h (by simp)
        next rest' u2 heq2 =>
          simp only [Except.ok.injEq, Prod.mk.injEq] at h
          obtain ⟨h1, _⟩ := h
          subst h1
          intro c hc
          have hnil := (analyzeSeqElems_validU stack (FormatList.cons e2 rest2) rest' u2 heq2).2.2
          cases rest' with
          | nil => exact absurd rfl hnil
          | cons a b =>
            simp only [carriersLast] at hc
            exact analyzeSeqElems_carriers stack (FormatList.cons e2 rest2)
              (FormatList.cons a b) u2 heq2 c hc
  termination_by stack es => 2 * sizeOf es
  decreasing_by
    all_goals simp_wf
    all_goals try simp
    all_goals try omega

/-- Carrier version of the or-elements lemma: every element
contributes carriers. -/
theorem analyzeOrElems_carriers : ∀ (stack : List Format) (es es' : FormatList)
    (anyU allU : Bool), analyzeOrElems stack es = .ok (es', anyU, allU) →
    ∀ c ∈ carriersList es', detectedOf c = detectEndStrings stack
  | _, .nil, _, _, _, h => by
    simp only [analyzeOrElems, Except.ok.injEq, Prod.mk.injEq] at h
    obtain ⟨h1, _⟩ := h
    subst h1
    intro c hc
    simp [carriersList] at hc
  | stack, .cons e rest, es', anyU, allU, h => by
    simp only [analyzeOrElems] at h
    split at h
    · exact absurd h (by simp)
    next e' heq =>
      split at h
      · exact absurd h (by simp)
      next rest' a2 l2 heq2 =>
        simp only [Except.ok.injEq, Prod.mk.injEq] at h
        obtain ⟨h1, _⟩ := h
        subst h1
        intro c hc
        simp only [carriersList, List.mem_append] at hc
        rcases hc with hc | hc
        · exact analyzeFormat_carriers stack e e' heq c hc
        · exact analyzeOrElems_carriers stack rest rest' a2 l2 heq2 c hc
  termination_by stack es => 2 * sizeOf es
  decreasing_by
    all_goals simp_wf
    all_goals try simp
    all_goals try omega

end

/-- C5: for a Tag whose analyzed content is unlimited, success requires
a non-empty string among the original end strings, the resulting `end`
is cleared to empty, and every unlimited end-carrier descendant
(AnyText, TriggeredTags or TagsWithSeparator) carries the complete
original end set in `detected_end_strs_`; a Tag whose content is
limited keeps its `end` unchanged. -/
theorem c5_tag_end_clearing (stack : List Format) (t t' : TagFormat)
    (h : analyzeTag stack t = .ok t') :
    (isUnlimited t'.contentOf = true →
      t'.endOf = [] ∧ (∃ s ∈ t.endOf, s ≠ []) ∧
      ∀ c ∈ carriers t'.contentOf, detectedOf c = t.endOf) ∧
    (isUnlimited t'.contentOf = false → t'.endOf = t.endOf) := by
  obtain ⟨b, c, e⟩ := t
  simp only [analyzeTag] at h
  split at h
  · exact absurd h (by simp)
  next c' heq =>
    have hcar := analyzeFormat_carriers (Format.tag (.mk b c e) :: stack) c c' heq
    have hdet : detectEndStrings (Format.tag (.mk b c e) :: stack) = e := rfl
    rw [hdet] at hcar
    split at h
    next hunl =>
      split at h
      next hany =>
        simp only [Except.ok.injEq] at h
        subst h
        constructor
        · intro _
          refine ⟨rfl, ?_, ?_⟩
          · obtain ⟨s, hs, hns⟩ := List.any_eq_true.mp hany
            exact ⟨s, hs, by simpa using hns⟩
          · intro cc hcc
            simp only [TagFormat.contentOf] at hcc
            simpa [TagFormat.endOf] using hcar cc hcc
        · intro hfalse
          simp only [TagFormat.contentOf] at hfalse
          rw [hunl] at hfalse
          exact absurd hfalse (by simp)
      · exact absurd h (by simp)
    next hnotunl =>
      simp only [Except.ok.injEq] at h
      subst h
      constructor
      · intro htrue
        simp only [TagFormat.contentOf] at htrue
        simp only [htrue] at hnotunl
        exact absurd trivial hnotunl
      · intro _
        rfl

/-- Witness for `c5_tag_end_clearing`: a Tag with AnyText content and
end `"x"` has its end cleared and the AnyText inherits `["x"]`. -/
theorem c5_tag_end_clearing_witness :
    (isUnlimited (TagFormat.mk [60] (.anyText [] [[120]]) []).contentOf = true →
      (TagFormat.mk [60] (.anyText [] [[120]]) []).endOf = [] ∧
      (∃ s ∈ (TagFormat.mk [60] (.anyText [] []) [[120]]).endOf, s ≠ []) ∧
      ∀ c ∈ carriers (TagFormat.mk [60] (.anyText [] [[120]]) []).contentOf,
        detectedOf c = (TagFormat.mk [60] (.anyText [] []) [[120]]).endOf) ∧
    (isUnlimited (TagFormat.mk [60] (.anyText [] [[120]]) []).contentOf = false →
      (TagFormat.mk [60] (.anyText [] [[120]]) []).endOf =
        (TagFormat.mk [60] (.anyText [] []) [[120]]).endOf) :=
  c5_tag_end_clearing [] (.mk [60] (.anyText [] []) [[120]]) (.mk [60] (.anyText [] [[120]]) [])
    (by simp [analyzeTag, analyzeFormat, detectEndStrings, isUnlimited, TagFormat.endOf])

/-! ### C10: non-empty detected ends of AnyText after analysis -/

mutual

/-- Every AnyText in an analyzed format either already has a non-empty
string among its detected ends, or its detected ends came verbatim from
the stack and the whole format is unlimited (so an enclosing Tag will
have checked them). -/
theorem analyzeFormat_anyTexts : ∀ (stack : List Format) (f f' : Format),
    analyzeFormat stack f = .ok f' →
    ∀ p ∈ anyTextsOf f', p.2.any (fun s => !s.isEmpty) = true ∨
      (p.2 = detectEndStrings stack ∧ isUnlimited f' = true)
  | _, .constString _, _, h => by
    simp only [analyzeFormat, Except.ok.injEq] at h; subst h; simp [anyTextsOf]
  | _, .jsonSchema _, _, h => by
    simp only [analyzeFormat, Except.ok.injEq] at h; subst h; simp [anyTextsOf]
  | _, .qwenXmlParameter _, _, h => by
    simp only [analyzeFormat, Except.ok.injEq] at h; subst h; simp [anyTextsOf]
  | _, .grammarFormat _, _, h => by
    simp only [analyzeFormat, Except.ok.injEq] at h; subst h; simp [anyTextsOf]
  | _, .regexFormat _ _, _, h => by
    simp only [analyzeFormat, Except.ok.injEq] at h; subst h; simp [anyTextsOf]
  | stack, .anyText ex de, f', h => by
    simp only [analyzeFormat, Except.ok.injEq] at h; subst h
    intro p hp
    simp only [anyTextsOf, List.mem_singleton] at hp
    subst hp
    right
    exact ⟨by simp [detectEndStrings], rfl⟩
  | stack, .sequence es u, f', h => by
    simp only [analyzeFormat] at h
    split at h
    · exact absurd h (by simp)
    next es' lastU heq =>
      simp only [Except.ok.injEq] at h; subst h
      intro p hp
      simp only [anyTextsOf] at hp
      have hr := analyzeSeqElems_anyTexts (Format.sequence es u :: stack) es es' lastU heq p hp
      rcases hr with hl | ⟨h1, h2⟩
      · exact Or.inl hl
      · right
        refine ⟨by simpa [detectEndStrings] using h1, by simpa [isUnlimited] using h2⟩
  | stack, .orFormat es u, f', h => by
    simp only [analyzeFormat] at h
    split at h
    · exact absurd h (by simp)
    next es' anyU allU heq =>
      split at h
      · exact absurd h (by simp)
      next hcond =>
        simp only [Except.ok.injEq] at h; subst h
        intro p hp
        simp only [anyTextsOf] at hp
        have hr := analyzeOrElems_anyTexts (Format.orFormat es u :: stack) es es' anyU allU heq p hp
        rcases hr with hl | ⟨h1, h2⟩
        · exact Or.inl hl
        · right
          refine ⟨by simpa [detectEndStrings] using h1, by simpa [isUnlimited] using h2⟩
  | stack, .tag t, f', h => by
    simp only [analyzeFormat] at h
    split at h
    · exact absurd h (by simp)
    next t' heq =>
      simp only [Except.ok.injEq] at h; subst h
      intro p hp
      have hseal := analyzeTag_anyTexts stack t t' heq
      left
      obtain ⟨b, c, e⟩ := t'
      simp only [anyTextsOf] at hp
      exact hseal p (by simpa [TagFormat.contentOf] using hp)
  | stack, .triggeredTags trigs tags ex de alo saf, f', h => by
    simp only [analyzeFormat] at h
    split at h
    · exact absurd h (by simp)
    next tags' heq =>
      simp only [Except.ok.injEq] at h; subst h
      intro p hp
      simp only [anyTextsOf] at hp
      exact Or.inl (analyzeTagList_anyTexts _ tags tags' heq p hp)
  | stack, .tagsWithSeparator tags sep de alo saf, f', h => by
    simp only [analyzeFormat] at h
    split at h
    · exact absurd h (by simp)
    next tags' heq =>
      simp only [Except.ok.injEq] at h; subst h
      intro p hp
      simp only [anyTextsOf] at hp
      exact Or.inl (analyzeTagList_anyTexts _ tags tags' heq p hp)
  termination_by stack f => 2 * sizeOf f + 1
  decreasing_by
    all_goals simp_wf
    all_goals try simp
    all_goals try omega

/-- Tags seal the obligation: every AnyText inside an analyzed Tag's
content has a non-empty detected end string. -/
theorem analyzeTag_anyTexts : ∀ (stack : List Format) (t t' : TagFormat),
    analyzeTag stack t = .ok t' →
    ∀ p ∈ anyTextsOf t'.contentOf, p.2.any (fun s => !s.isEmpty) = true
  | stack, .mk b c e, t', h => by
    simp only [analyzeTag] at h
    split at h
    · exact absurd h (by simp)
    next c' heq =>
      have hrec := analyzeFormat_anyTexts (Format.tag (.mk b c e) :: stack) c c' heq
      have hdet : detectEndStrings (Format.tag (.mk b c e) :: stack) = e := rfl
      split at h
      next hunl =>
        split at h
        next hany =>
          simp only [Except.ok.injEq] at h
          subst h
          intro p hp
          simp only [TagFormat.contentOf] at hp
          rcases hrec p hp with hl | ⟨h1, _⟩
          · exact hl
          · rw [h1, hdet]
            exact hany
        · exact absurd h (by simp)
      next hnotunl =>
        simp only [Except.ok.injEq] at h
        subst h
        intro p hp
        simp only [TagFormat.contentOf] at hp
        rcases hrec p hp with hl | ⟨_, h2⟩
        · exact hl
        · exact absurd h2 (by simpa using hnotunl)
  termination_by stack t => 2 * sizeOf t
  decreasing_by
    all_goals simp_wf
    all_goals try simp
    all_goals try omega

/-- Sequence elements: non-last elements are sealed or limited; the
last element propagates with the sequence's flag. -/
theorem analyzeSeqElems_anyTexts : ∀ (stack : List Format) (es es' : FormatList) (u : Bool),
    analyzeSeqElems stack es = .ok (es', u) →
    ∀ p ∈ anyTextsList es', p.2.any (fun s => !s.isEmpty) = true ∨
      (p.2 = detectEndStrings stack ∧ u = true)
  | _, .nil, _, _, h => absurd h (by simp [analyzeSeqElems])
  | stack, .cons e .nil, es', u, h => by
    simp only [analyzeSeqElems] at h
    split at h
    · exact absurd h (by simp)
    next e' heq =>
      simp only [Except.ok.injEq, Prod.mk.injEq] at h
      obtain ⟨h1, h2⟩ := h
      subst h1; subst h2
      intro p hp
      simp only [anyTextsList, List.append_nil] at hp
      exact analyzeFormat_anyTexts stack e e' heq p hp
  | stack, .cons e (.cons e2 rest2), es', u, h => by
    simp only [analyzeSeqElems] at h
    split at h
    · exact absurd h (by simp)
    next e' heq =>
      split at h
      · exact absurd h (by simp)
      next hlim =>
        split at h
        · exact absurd h (by simp)
        next rest' u2 heq2 =>
          simp only [Except.ok.injEq, Prod.mk.injEq] at h
          obtain ⟨h1, h2⟩ := h
          subst h1; subst h2
          intro p hp
          simp only [anyTextsList, List.mem_append] at hp
          rcases hp with hp | hp
          · rcases analyzeFormat_anyTexts stack e e' heq p hp with hl | ⟨_, h2⟩
            · exact Or.inl hl
            · exact absurd h2 (by simpa using hlim)
          · exact analyzeSeqElems_anyTexts stack (FormatList.cons e2 rest2) rest' u2 heq2 p hp
  termination_by stack es => 2 * sizeOf es
  decreasing_by
    all_goals simp_wf
    all_goals try simp
    all_goals try omega

/-- Or elements: an unlimited element makes the whole Or unlimited, so
the stack disjunct propagates. -/
theorem analyzeOrElems_anyTexts : ∀ (stack : List Format) (es es' : FormatList)
    (anyU allU : Bool), analyzeOrElems stack es = .ok (es', anyU, allU) →
    ∀ p ∈ anyTextsList es', p.2.any (fun s => !s.isEmpty) = true ∨
      (p.2 = detectEndStrings stack ∧ anyU = true)
  | _, .nil, _, _, _, h => by
    simp only [analyzeOrElems, Except.ok.injEq, Prod.mk.injEq] at h
    obtain ⟨h1, _⟩ := h
    subst h1
    intro p hp
    simp [anyTextsList] at hp
  | stack, .cons e rest, es', anyU, allU, h => by
    simp only [analyzeOrElems] at h
    split at h
    · exact absurd h (by simp)
    next e' heq =>
      split at h
      · exact absurd h (by simp)
      next rest' a2 l2 heq2 =>
        simp only [Except.ok.injEq, Prod.mk.injEq] at h
        obtain ⟨h1, h2, h3⟩ := h
        subst h1; subst h2; subst h3
        intro p hp
        simp only [anyTextsList, List.mem_append] at hp
        rcases hp with hp | hp
        · rcases analyzeFormat_anyTexts stack e e' heq p hp with hl | ⟨hd, hu⟩
          · exact Or.inl hl
          · exact Or.inr ⟨hd, by simp [hu]⟩
        · rcases analyzeOrElems_anyTexts stack rest rest' a2 l2 heq2 p hp with hl | ⟨hd, hu⟩
          · exact Or.inl hl
          · exact Or.inr ⟨hd, by simp [hu]⟩
  termination_by stack es => 2 * sizeOf es
  decreasing_by
    all_goals simp_wf
    all_goals try simp
    all_goals try omega

/-- TriggeredTags/TagsWithSeparator tags: all their AnyTexts are
sealed by their own Tag. -/
theorem analyzeTagList_anyTexts : ∀ (stack : List Format) (tl tl' : TagList),
    analyzeTagList stack tl = .ok tl' →
    ∀ p ∈ anyTextsTags tl', p.2.any (fun s => !s.isEmpty) = true
  | _, .nil, _, h => by
    simp only [analyzeTagList, Except.ok.injEq] at h; subst h
    intro p hp
    simp [anyTextsTags] at hp
  | stack, .cons t rest, tl', h => by
    simp only [analyzeTagList] at h
    split at h
    · exact absurd h (by simp)
    next t' heq =>
      split at h
      · exact absurd h (by simp)
      next rest' heq2 =>
        simp only [Except.ok.injEq] at h
        subst h
        intro p hp
        have hseal := analyzeTag_anyTexts stack t t' heq
        have hrec := analyzeTagList_anyTexts stack rest rest' heq2
        obtain ⟨b, c, e⟩ := t'
        simp only [anyTextsTags, List.mem_append] at hp
        rcases hp with hp | hp
        · exact hseal p (by simpa [TagFormat.contentOf] using hp)
        · exact hrec p hp
  termination_by stack tl => 2 * sizeOf tl
  decreasing_by
    all_goals simp_wf
    all_goals try simp
    all_goals try omega

end

/-- C10: after a successful analysis of a whole StructuralTag, every
AnyText whose detected end strings are non-empty contains a non-empty
string, so the converter's filtered stop-string list is never empty
(the internal assertion cannot fire) and the emitted `any_text` rule is
exactly a TagDispatch with a non-empty stop-string list. -/
theorem c10_anytext_nonempty_stops (f f' : Format) (h : analyzeFormat [] f = .ok f') :
    ∀ p ∈ anyTextsOf f', p.2 ≠ [] →
      nonEmptyEnds p.2 ≠ [] ∧
      ∀ st : ConvState,
        visitSubF st (.anyText p.1 p.2) =
          ({ st with rules := st.rules ++
              [("any_text",
                some (.tagDispatch ⟨[], false, nonEmptyEnds p.2, false, p.1⟩))] },
           .ok st.rules.length) := by
  intro p hp hne
  have hdisj := analyzeFormat_anyTexts [] f f' h p hp
  have hany : p.2.any (fun s => !s.isEmpty) = true := by
    rcases hdisj with hl | ⟨hd, _⟩
    · exact hl
    · exact absurd hd (by simpa [detectEndStrings] using hne)
  constructor
  · obtain ⟨s, hs, hns⟩ := List.any_eq_true.mp hany
    intro hcontra
    have := List.filter_eq_nil_iff.mp hcontra s hs
    simp at this
    simp [this] at hns
  · intro st
    have hempty : p.2.isEmpty = false := by
      cases hpp : p.2 with
      | nil => exact absurd hpp hne
      | cons a b => rfl
    simp [visitSubF, hempty, ConvState.addRule]

/-- Witness for `c10_anytext_nonempty_stops`: a Tag around an AnyText
with end `"x"`. -/
theorem c10_anytext_nonempty_stops_witness :
    nonEmptyEnds [[120]] ≠ [] ∧
    ∀ st : ConvState,
      visitSubF st (.anyText [] [[120]]) =
        ({ st with rules := st.rules ++
            [("any_text", some (.tagDispatch ⟨[], false, nonEmptyEnds [[120]], false, []⟩))] },
         .ok st.rules.length) :=
  c10_anytext_nonempty_stops (.tag (.mk [60] (.anyText [] []) [[120]]))
    (.tag (.mk [60] (.anyText [] [[120]]) []))
    (by simp [analyzeFormat, analyzeTag, detectEndStrings, isUnlimited, TagFormat.endOf])
    ([], [[120]]) (by simp [anyTextsOf, TagFormat.contentOf]) (by simp)

/-! ### C6: trigger matching in TriggeredTags conversion -/

/-- An `ok` result of the matching loop with an already-matched trigger
means no further trigger matches. -/
theorem findMatchedTriggerGo_some_ok (b : ByteStr) :
    ∀ (ts : List ByteStr) (idx j0 j : Nat),
      findMatchedTriggerGo b ts idx (some j0) = .ok j →
      ts.countP (fun t => prefixMatches t b) = 0 ∧ j = j0 := by
  intro ts
  induction ts with
  | nil =>
    intro idx j0 j h
    simp only [findMatchedTriggerGo, Except.ok.injEq] at h
    simp [h]
  | cons t rest ih =>
    intro idx j0 j h
    simp only [findMatchedTriggerGo] at h
    by_cases hp : prefixMatches t b = true
    · rw [if_pos hp] at h
      exact absurd h (by simp)
    · rw [if_neg hp] at h
      obtain ⟨h1, h2⟩ := ih (idx + 1) j0 j h
      exact ⟨by simp [List.countP_cons, hp, h1], h2⟩

/-- An `ok j` result of the matching loop starting unmatched at offset
`idx` means exactly one trigger matches, at position `j - idx`. -/
theorem findMatchedTriggerGo_none_ok (b : ByteStr) :
    ∀ (ts : List ByteStr) (idx j : Nat),
      findMatchedTriggerGo b ts idx none = .ok j →
      ts.countP (fun t => prefixMatches t b) = 1 ∧ idx ≤ j ∧ j - idx < ts.length ∧
        prefixMatches (ts.getD (j - idx) []) b = true := by
  intro ts
  induction ts with
  | nil =>
    intro idx j h
    exact absurd h (by simp [findMatchedTriggerGo])
  | cons t rest ih =>
    intro idx j h
    simp only [findMatchedTriggerGo] at h
    by_cases hp : prefixMatches t b = true
    · rw [if_pos hp] at h
      obtain ⟨h1, h2⟩ := findMatchedTriggerGo_some_ok b rest (idx + 1) idx j h
      subst h2
      refine ⟨by simp [List.countP_cons, hp, h1], Nat.le_refl _, by simp, ?_⟩
      simpa using hp
    · rw [if_neg hp] at h
      obtain ⟨h1, h2, h3, h4⟩ := ih (idx + 1) j h
      refine ⟨by simp [List.countP_cons, hp, h1], by omega, ?_, ?_⟩
      · simp only [List.length_cons]
        omega
      · have hji : j - idx = (j - (idx + 1)) + 1 := by omega
        rw [hji]
        simpa using h4

/-- `FindMatchedTrigger` succeeds with the position of the unique
matching trigger. -/
theorem findMatchedTrigger_ok (trigs : List ByteStr) (b : ByteStr) (j : Nat)
    (h : findMatchedTrigger trigs b = .ok j) :
    trigs.countP (fun t => prefixMatches t b) = 1 ∧ j < trigs.length ∧
      prefixMatches (trigs.getD j []) b = true := by
  obtain ⟨h1, _, h3, h4⟩ := findMatchedTriggerGo_none_ok b trigs 0 j h
  exact ⟨h1, by simpa using h3, by simpa using h4⟩

/-- A successful per-tag loop of the TriggeredTags conversion found a
matching trigger for every tag. -/
theorem visitTTLoop_ok : ∀ (st : ConvState) (trigs : List ByteStr) (tags : TagList)
    (st' : ConvState) (infos : List (TagFormat × Nat × Nat)),
    visitTTLoop st trigs tags = (st', .ok infos) →
    ∀ t ∈ tags.toList, ∃ j, findMatchedTrigger trigs t.beginOf = .ok j
  | st, trigs, .nil, st', infos, h => by
    intro t ht
    simp [TagList.toList] at ht
  | st, trigs, .cons (.mk b c e) rest, st', infos, h => by
    simp only [visitTTLoop] at h
    cases hf : findMatchedTrigger trigs b with
    | error err =>
      rw [hf] at h
      split at h
      next heq => exact absurd h (by simp)
      next j2 heq => exact absurd heq (by simp)
    | ok j =>
      rw [hf] at h
      intro t ht
      simp only [TagList.toList, List.mem_cons] at ht
      split at h
      next heq => exact absurd heq (by simp)
      next j2 heq =>
        rcases ht with ht | ht
        · subst ht
          exact ⟨j, by simpa [TagFormat.beginOf] using hf⟩
        · split at h
          next st1 err2 heq2 => exact absurd h (by simp)
          next st1 cid heq2 =>
            split at h
            next st2 err3 heq3 => exact absurd h (by simp)
            next st2 tail heq3 =>
              exact visitTTLoop_ok st1 trigs rest st2 tail heq3 t ht
  termination_by st trigs tags => sizeOf tags
  decreasing_by
    all_goals simp_wf
    all_goals try simp
    all_goals try omega

/-- C6 (amended): when conversion of a TriggeredTags format succeeds,
every tag matches exactly one of the format's triggers as a byte prefix
of its begin string, and is mapped to that trigger; equivalently, a
format containing a tag with zero or several matching triggers is
rejected.  The converse of the original claim — every failure comes
from such a mismatch — is refuted by
`c6_failure_without_trigger_mismatch`. -/
theorem c6_trigger_matching (st : ConvState) (trigs : List ByteStr) (tags : TagList)
    (ex de : List ByteStr) (alo saf : Bool) (r : Nat)
    (h : (visitSubF st (.triggeredTags trigs tags ex de alo saf)).2 = .ok r) :
    ∀ t ∈ tags.toList,
      trigs.countP (fun tr => prefixMatches tr t.beginOf) = 1 ∧
      ∃ j, findMatchedTrigger trigs t.beginOf = .ok j ∧ j < trigs.length ∧
        prefixMatches (trigs.getD j []) t.beginOf = true := by
  intro t ht
  simp only [visitSubF] at h
  rcases hl : visitTTLoop st trigs tags with ⟨st1, res⟩
  rw [hl] at h
  cases res with
  | error e => simp at h
  | ok infos =>
    obtain ⟨j, hj⟩ := visitTTLoop_ok st trigs tags st1 infos hl t ht
    obtain ⟨h1, h2, h3⟩ := findMatchedTrigger_ok trigs t.beginOf j hj
    exact ⟨h1, j, hj, h2, h3⟩

/-- Witness for `c6_trigger_matching`: a one-tag, one-trigger format
that converts successfully. -/
theorem c6_trigger_matching_witness :
    ([[60]] : List ByteStr).countP
        (fun tr => prefixMatches tr (TagFormat.mk [60, 97] (.constString [99]) []).beginOf) = 1 ∧
    ∃ j, findMatchedTrigger [[60]] (TagFormat.mk [60, 97] (.constString [99]) []).beginOf =
        .ok j ∧ j < ([[60]] : List ByteStr).length ∧
      prefixMatches (([[60]] : List ByteStr).getD j [])
        (TagFormat.mk [60, 97] (.constString [99]) []).beginOf = true :=
  c6_trigger_matching ⟨[], []⟩ [[60]]
    (TagList.ofList [TagFormat.mk [60, 97] (.constString [99]) []]) [] [] false false 2
    (by simp [visitSubF, visitTTLoop, visitTTRest, findMatchedTrigger, findMatchedTriggerGo,
      prefixMatches, lookupCache, cacheInsert, ttGroups, ttGroupElems, ttChoiceElemsFull,
      tagSeqExpr, endExpr, nonEmptyEnds, ConvState.addRule, TagList.ofList,
      TagFormat.beginOf, TagFormat.endOf, TagFormat.contentOf])
    (TagFormat.mk [60, 97] (.constString [99]) [])
    (by simp [TagList.ofList, TagList.toList])

/-- C6 (counterexample to the original claim's "iff"): conversion of
`outerTTc6` fails even though its only tag matches exactly one of its
triggers — the failure comes from the nested TriggeredTags inside the
tag's content, whose own tag matches no trigger. -/
theorem c6_failure_without_trigger_mismatch :
    (visitSubF ⟨[], []⟩ outerTTc6).2 =
      .error "One tag does not match any trigger in a triggered tags format" ∧
    ∀ t ∈ (TagList.ofList [TagFormat.mk [60, 97, 62] innerTTc6 [[101]]]).toList,
      ([[60]] : List ByteStr).countP (fun tr => prefixMatches tr t.beginOf) = 1 := by
  constructor
  · simp [outerTTc6, innerTTc6, visitSubF, visitTTLoop, findMatchedTrigger,
      findMatchedTriggerGo, prefixMatches, lookupCache, cacheInsert, TagList.ofList]
  · decide

/-! ### C3: the fingerprint cache and syntactically equal subtrees -/

/-- C3 (counterexample): within the single conversion of `rootCE`, two
tags with literally equal contents resolve them to different rule ids.
`tagC` (begin byte 99, tag rule 5) and `tagB` (begin byte 66, tag rule
10) both have content `innerTS`, yet their tag rules reference content
rules 4 and 8 respectively: the lossy TagsWithSeparator fingerprint of
`outerTS` collides with `innerTS`'s, and its later cache insertion
shadows the earlier binding, so `tagB`'s content resolves to
`outerTS`'s rule. -/
theorem c3_equal_subtrees_different_rule_ids :
    tagC.contentOf = tagB.contentOf ∧
    ∃ st : ConvState,
      visitFormat ⟨[], []⟩ rootCE = (st, .ok 11) ∧
      st.rules.getD 5 ("", none) =
        ("tag", some (.gchoices [.gseq [.byteString tagC.beginOf, .ruleRef 4]])) ∧
      st.rules.getD 10 ("", none) =
        ("tag", some (.gchoices [.gseq [.byteString tagB.beginOf, .ruleRef 8]])) := by
  refine ⟨rfl, (visitFormat ⟨[], []⟩ rootCE).1, ?_, ?_, ?_⟩
  · have h2 : (visitFormat ⟨[], []⟩ rootCE).2 = .ok 11 := by
      simp [rootCE, innerTS, tagC, outerTS, tagA, tagB, visitFormat, visitSubF, visitSubTag,
        visitElems, visitTSTags, visitTSRest, cacheInsert, lookupCache, fingerprint,
        fingerprintTag, fingerprintElems, joinBar, boolByte, ConvState.addRule,
        ConvState.addEmptyRule, ConvState.updateRuleBody, tagSeqExpr, endExpr, nonEmptyEnds,
        TagList.ofList, FormatList.ofList, TagFormat.beginOf, TagFormat.endOf,
        TagFormat.contentOf]
    rw [← h2]
  · simp [rootCE, innerTS, tagC, outerTS, tagA, tagB, visitFormat, visitSubF, visitSubTag,
      visitElems, visitTSTags, visitTSRest, cacheInsert, lookupCache, fingerprint,
      fingerprintTag, fingerprintElems, joinBar, boolByte, ConvState.addRule,
      ConvState.addEmptyRule, ConvState.updateRuleBody, tagSeqExpr, endExpr, nonEmptyEnds,
      TagList.ofList, FormatList.ofList, TagFormat.beginOf, TagFormat.endOf, TagFormat.contentOf]
  · simp [rootCE, innerTS, tagC, outerTS, tagA, tagB, visitFormat, visitSubF, visitSubTag,
      visitElems, visitTSTags, visitTSRest, cacheInsert, lookupCache, fingerprint,
      fingerprintTag, fingerprintElems, joinBar, boolByte, ConvState.addRule,
      ConvState.addEmptyRule, ConvState.updateRuleBody, tagSeqExpr, endExpr, nonEmptyEnds,
      TagList.ofList, FormatList.ofList, TagFormat.beginOf, TagFormat.endOf, TagFormat.contentOf]

/-- C3 (amended): what the cache does guarantee: a fingerprint hit
returns the cached rule id with the state unchanged, and the binding is
still there afterwards.  Syntactic equality of subtrees does not imply
id stability, because fingerprints are lossy
(`c2_fingerprint_not_injective`) and a later colliding insertion
shadows an earlier one. -/
theorem c3_cache_hit_stability (st : ConvState) (f : Format) (r : Nat)
    (h : lookupCache st.cache (fingerprint f) = some r) :
    visitFormat st f = (st, .ok r) ∧
    lookupCache (visitFormat st f).1.cache (fingerprint f) = some r := by
  have h1 : visitFormat st f = (st, .ok r) := by
    simp [visitFormat, h]
  exact ⟨h1, by rw [h1]; exact h⟩

/-- Witness for `c3_cache_hit_stability`: a cache holding the
fingerprint of `"a"` as a ConstString. -/
theorem c3_cache_hit_stability_witness :
    visitFormat ⟨[], [([67, 83, 58, 97], 7)]⟩ (.constString [97]) =
      (⟨[], [([67, 83, 58, 97], 7)]⟩, .ok 7) ∧
    lookupCache (visitFormat ⟨[], [([67, 83, 58, 97], 7)]⟩ (.constString [97])).1.cache
      (fingerprint (.constString [97])) = some 7 :=
  c3_cache_hit_stability ⟨[], [([67, 83, 58, 97], 7)]⟩ (.constString [97]) 7
    (by simp [lookupCache, fingerprint, List.find?])

/-! ### C8: the two forms of the TagsWithSeparator rule -/

/-- Element lookup just past a two-element append. -/
theorem getElem_append_pair {α : Type} : ∀ (l : List α) (a b : α),
    (l ++ [a, b])[l.length + 1]? = some b := by
  intro l a b
  induction l with
  | nil => rfl
  | cons x t ih => simpa using ih

/-- Value-level version of `getElem_append_pair`. -/
theorem getElem_append_pair_val {α : Type} (l : List α) (a b : α)
    (h : l.length + 1 < (l ++ [a, b]).length) :
    (l ++ [a, b])[l.length + 1] = b := by
  have h2 := getElem_append_pair l a b
  rw [List.getElem?_eq_getElem h] at h2
  simpa using h2

/-- `List.get?` version of `getElem_append_pair`. -/
theorem get_append_pair {α : Type} (l : List α) (a b : α) :
    (l ++ [a, b]).get? (l.length + 1) = some b := by
  rw [List.get?_eq_getElem?]
  exact getElem_append_pair l a b

/-- Setting the element just past a two-element append. -/
theorem set_append_pair {α : Type} : ∀ (l : List α) (a b c : α),
    (l ++ [a, b]).set (l.length + 1) c = l ++ [a, c] := by
  intro l a b c
  induction l with
  | nil => rfl
  | cons x t ih => simpa using ih

/-- Full tag alternatives (begin, tags-reference, end) are never
empty/end alternatives. -/
theorem anyNotTagAltFull (n : Nat) (l : List ByteStr) :
    (l.map (fun e => GExpr.gseq [.ruleRef n, .byteString e])).any
      (fun c => !(isTagAlt n c)) = false := by
  induction l with
  | nil => rfl
  | cons e t ih => simp [isTagAlt, ih]

/-- C8: for every TagsWithSeparator format, after the
`tags_with_separator_tags` rule the converter emits the non-recursive
special-case root rule exactly when `stop_after_first` is set, or some
detected end string is non-empty and the separator equals an element
(possibly the empty one) of the detected end strings; otherwise it
emits a `tags_with_separator_sub` rule followed by the recursive root
rule.  In both forms the root rule's choices contain an empty/end
alternative — one that is not a sequence starting with a reference to
the tags rule — iff `at_least_one` is false. -/
theorem c8_tags_with_separator_form (st : ConvState) (sep : ByteStr) (de : List ByteStr)
    (alo saf : Bool) (tagIds : List Nat) :
    ∃ (cs : List GExpr) (mid : List GRule),
      visitTSRest st sep de alo saf tagIds =
        (⟨st.rules ++
            [("tags_with_separator_tags",
              some (.gchoices (tagIds.map (fun i => GExpr.gseq [.ruleRef i]))))] ++
            mid ++ [("tags_with_separator", some (.gchoices cs))],
          st.cache⟩,
         .ok (st.rules.length + 1 + mid.length)) ∧
      mid.map Prod.fst =
        (if saf || (!(nonEmptyEnds de).isEmpty && de.contains sep) then []
         else ["tags_with_separator_sub"]) ∧
      cs.any (fun c => !(isTagAlt st.rules.length c)) = !alo := by
  rcases hE : nonEmptyEnds de with _ | ⟨e0, er⟩
  · cases saf
    · refine ⟨[GExpr.gseq [.ruleRef st.rules.length, .ruleRef (st.rules.length + 1)]] ++
          (if !alo then [GExpr.emptyStr] else []),
        [("tags_with_separator_sub",
          some (.gchoices [.gseq ((if sep ≠ [] then [GExpr.byteString sep] else []) ++
            [GExpr.ruleRef st.rules.length, GExpr.ruleRef (st.rules.length + 1)]),
            GExpr.emptyStr]))], ?_, ?_, ?_⟩
      · simp [visitTSRest, hE, ConvState.addRule, ConvState.addEmptyRule,
          ConvState.updateRuleBody, get_append_pair, getElem_append_pair, getElem_append_pair_val, set_append_pair,
          List.append_assoc]
      · simp [hE]
      · cases alo <;> simp [isTagAlt]
    · cases alo
      · refine ⟨[GExpr.gseq [.ruleRef st.rules.length], GExpr.emptyStr], [], ?_, ?_, ?_⟩
        · simp [visitTSRest, hE, ConvState.addRule, List.append_assoc]
        · simp
        · simp [isTagAlt]
      · refine ⟨[GExpr.gseq [.ruleRef st.rules.length]], [], ?_, ?_, ?_⟩
        · simp [visitTSRest, hE, ConvState.addRule, List.append_assoc]
        · simp
        · simp [isTagAlt]
  · by_cases hsep : sep ∈ de
    · cases alo
      · refine ⟨(e0 :: er).map (fun e => GExpr.gseq [.ruleRef st.rules.length, .byteString e]) ++
            (e0 :: er).map (fun e => GExpr.gseq [.byteString e]), [], ?_, ?_, ?_⟩
        · simp [visitTSRest, hE, hsep, ConvState.addRule, List.append_assoc]
        · simp [hE, hsep]
        · simp [List.any_append, anyNotTagAltFull, isTagAlt]
      · refine ⟨(e0 :: er).map
            (fun e => GExpr.gseq [.ruleRef st.rules.length, .byteString e]), [], ?_, ?_, ?_⟩
        · simp [visitTSRest, hE, hsep, ConvState.addRule, List.append_assoc]
        · simp [hE, hsep]
        · simpa using anyNotTagAltFull st.rules.length (e0 :: er)
    · cases saf
      · rcases er with _ | ⟨e1, er2⟩
        · refine ⟨[GExpr.gseq [.ruleRef st.rules.length, .ruleRef (st.rules.length + 1)]] ++
              (if !alo then [GExpr.gseq [.byteString e0]] else []),
            [("tags_with_separator_sub",
              some (.gchoices [.gseq ((if sep ≠ [] then [GExpr.byteString sep] else []) ++
                [GExpr.ruleRef st.rules.length, GExpr.ruleRef (st.rules.length + 1)]),
                .gseq [.byteString e0]]))], ?_, ?_, ?_⟩
          · simp [visitTSRest, hE, hsep, ConvState.addRule, ConvState.addEmptyRule,
              ConvState.updateRuleBody, get_append_pair, getElem_append_pair, getElem_append_pair_val, set_append_pair,
              List.append_assoc]
          · simp [hE, hsep]
          · cases alo <;> simp [isTagAlt]
        · refine ⟨[GExpr.gseq [.ruleRef st.rules.length, .ruleRef (st.rules.length + 1)]] ++
              (if !alo then
                [GExpr.gchoices
                  ((e0 :: e1 :: er2).map (fun e => GExpr.gseq [.byteString e]))] else []),
            [("tags_with_separator_sub",
              some (.gchoices [.gseq ((if sep ≠ [] then [GExpr.byteString sep] else []) ++
                [GExpr.ruleRef st.rules.length, GExpr.ruleRef (st.rules.length + 1)]),
                .gchoices ((e0 :: e1 :: er2).map (fun e => GExpr.gseq [.byteString e]))]))],
            ?_, ?_, ?_⟩
          · simp [visitTSRest, hE, hsep, ConvState.addRule, ConvState.addEmptyRule,
              ConvState.updateRuleBody, get_append_pair, getElem_append_pair, getElem_append_pair_val, set_append_pair,
              List.append_assoc]
          · simp [hE, hsep]
          · cases alo <;> simp [isTagAlt]
      · cases alo
        · refine ⟨(e0 :: er).map
              (fun e => GExpr.gseq [.ruleRef st.rules.length, .byteString e]) ++
              (e0 :: er).map (fun e => GExpr.gseq [.byteString e]), [], ?_, ?_, ?_⟩
          · simp [visitTSRest, hE, ConvState.addRule, List.append_assoc]
          · simp [hE]
          · simp [List.any_append, anyNotTagAltFull, isTagAlt]
        · refine ⟨(e0 :: er).map
              (fun e => GExpr.gseq [.ruleRef st.rules.length, .byteString e]), [], ?_, ?_, ?_⟩
          · simp [visitTSRest, hE, ConvState.addRule, List.append_assoc]
          · simp [hE]
          · simpa using anyNotTagAltFull st.rules.length (e0 :: er)

/-! ### C1: the exclusion automaton -/

/-! ### C1 helper lemmas -/

/-- The first match survives a filter that keeps it: removed elements
before it never match. -/
theorem find_filter_first {α : Type} (p keep : α → Bool) :
    ∀ (l : List α) (e : α), l.find? p = some e → keep e = true →
    (l.filter keep).find? p = some e := by
  intro l
  induction l with
  | nil => intro e h; simp at h
  | cons a t ih =>
    intro e h hk
    cases hp : p a with
    | true =>
      rw [List.find?_cons_of_pos _ hp] at h
      obtain rfl : a = e := by simpa using h
      rw [List.filter_cons, if_pos hk, List.find?_cons_of_pos _ hp]
    | false =>
      rw [List.find?_cons_of_neg _ (by simp [hp])] at h
      by_cases hka : keep a = true
      · rw [List.filter_cons, if_pos hka, List.find?_cons_of_neg _ (by simp [hp])]
        exact ih e h hk
      · rw [List.filter_cons, if_neg (by simp [hka])]
        exact ih e h hk

theorem find_eq_self (b : Nat) : ∀ (L : List Nat),
    L.find? (fun c => decide (c = b)) = if b ∈ L then some b else none := by
  intro L
  induction L with
  | nil => simp
  | cons c t ih =>
    by_cases h : c = b
    · subst h
      rw [List.find?_cons_of_pos _ (by simp)]
      simp
    · rw [List.find?_cons_of_neg _ (by simp [h]), ih]
      simp [Ne.symm h]

theorem mem_coveredOf {edges : List FSMEdge} {b : Nat} :
    b ∈ coveredOf edges ↔ ∃ e ∈ edges, e.min ≤ b ∧ b ≤ e.max := by
  unfold coveredOf
  simp only [List.mem_flatMap, List.mem_map, List.mem_range]
  constructor
  · rintro ⟨e, he, i, hi, rfl⟩
    exact ⟨e, he, by omega, by omega⟩
  · rintro ⟨e, he, h1, h2⟩
    exact ⟨e, he, b - e.min, by omega, by omega⟩

theorem find_none_iff_uncovered (edges : List FSMEdge) (b : Nat) :
    edges.find? (fun e => decide (e.min ≤ b ∧ b ≤ e.max)) = none ↔ b ∉ coveredOf edges := by
  rw [List.find?_eq_none, mem_coveredOf]
  constructor
  · rintro h ⟨e, he, h1, h2⟩
    exact absurd (by simp [h1, h2]) (h e he)
  · intro h e he
    simp only [decide_eq_true_eq]
    intro hc
    exact h ⟨e, he, hc.1, hc.2⟩

theorem find_gapEdges (covered : List Nat) (b : Nat) :
    (gapEdges covered).find? (fun e => decide (e.min ≤ b ∧ b ≤ e.max)) =
      if b < 256 ∧ b ∉ covered then some ⟨b, b, 0⟩ else none := by
  unfold gapEdges
  rw [List.find?_map]
  have hp : ((fun e => decide (e.min ≤ b ∧ b ≤ e.max)) ∘
      (fun c => (⟨c, c, 0⟩ : FSMEdge))) = (fun c => decide (c = b)) := by
    funext c
    simp only [Function.comp_apply]
    show (decide (c ≤ b ∧ b ≤ c)) = decide (c = b)
    exact decide_eq_decide.mpr (by omega)
  rw [hp, find_eq_self]
  by_cases h : b ∈ (List.range 256).filter (fun c => !covered.contains c)
  · have h2 : b < 256 ∧ b ∉ covered := by
      simpa [List.mem_filter, List.mem_range] using h
    simp [h, h2]
  · have h2 : ¬ (b < 256 ∧ b ∉ covered) := by
      intro hc
      exact h (by simpa [List.mem_filter, List.mem_range] using hc)
    simp [h, h2]

theorem copyStartEdges_eq :
    ∀ (SE edges : List FSMEdge) (cov : List Nat),
    copyStartEdges SE edges cov =
      (edges ++ copySel SE cov, cov ++ (copySel SE cov).map (fun e => e.min)) := by
  intro SE
  induction SE with
  | nil => intro edges cov; simp [copyStartEdges, copySel]
  | cons se rest ih =>
    intro edges cov
    cases hi : cov.contains se.min with
    | true =>
      have hm : se.min ∈ cov := by simpa using hi
      rw [show copyStartEdges (se :: rest) edges cov = copyStartEdges rest edges cov from by
        simp [copyStartEdges, hm], ih]
      simp [copySel, hm]
    | false =>
      have hm : se.min ∉ cov := by simpa using hi
      rw [show copyStartEdges (se :: rest) edges cov =
          copyStartEdges rest (edges ++ [se]) (cov ++ [se.min]) from by
        simp [copyStartEdges, hm], ih]
      simp [copySel, hm]

theorem copySel_find (b : Nat) :
    ∀ (SE : List FSMEdge) (cov : List Nat), (∀ e ∈ SE, e.min = e.max) →
    (copySel SE cov).find? (fun e => decide (e.min ≤ b ∧ b ≤ e.max)) =
      (if b ∈ cov then none
       else SE.find? (fun e => decide (e.min ≤ b ∧ b ≤ e.max))) := by
  intro SE
  induction SE with
  | nil =>
    intro cov _
    simp [copySel]
  | cons se rest ih =>
    intro cov hsb
    have hse : se.min = se.max := hsb se (by simp)
    by_cases hc : se.min ∈ cov
    · rw [show copySel (se :: rest) cov = copySel rest cov from by simp [copySel, hc],
        ih cov (fun e he => hsb e (by simp [he]))]
      by_cases hcb : b ∈ cov
      · simp [hcb]
      · have hne : se.min ≠ b := fun h => hcb (h ▸ hc)
        rw [if_neg hcb, if_neg hcb, List.find?_cons_of_neg _ (by simp; omega)]
    · rw [show copySel (se :: rest) cov = se :: copySel rest (cov ++ [se.min]) from by
        simp [copySel, hc]]
      by_cases hmb : se.min = b
      · have hcb : b ∉ cov := by rw [← hmb]; exact hc
        rw [List.find?_cons_of_pos _ (by simp; omega), if_neg hcb,
          List.find?_cons_of_pos _ (by simp; omega)]
      · rw [List.find?_cons_of_neg _ (by simp; omega),
          ih (cov ++ [se.min]) (fun e he => hsb e (by simp [he]))]
        by_cases hcb : b ∈ cov
        · rw [if_pos (by simp [hcb]), if_pos hcb]
        · rw [if_neg (by simp [hcb, Ne.symm hmb]), if_neg hcb,
            List.find?_cons_of_neg _ (by simp; omega)]

theorem getEdges_set_self (fsm : Fsm) (s : Nat) (x : List FSMEdge) (h : s < fsm.length) :
    getEdges (fsm.set s x) s = x := by
  simp [getEdges, List.getD, List.getElem?_set_self h]

theorem getEdges_set_ne (fsm : Fsm) (s j : Nat) (x : List FSMEdge) (h : s ≠ j) :
    getEdges (fsm.set s x) j = getEdges fsm j := by
  simp [getEdges, List.getD, List.getElem?_set_ne h]

theorem getEdges_append_empty (fsm : Fsm) (s : Nat) :
    getEdges (fsm ++ [[]]) s = getEdges fsm s := by
  rcases Nat.lt_trichotomy s fsm.length with h | h | h
  · simp [getEdges, List.getD, List.getElem?_append_left h]
  · subst h
    simp [getEdges, List.getD, List.getElem?_append_right (Nat.le_refl _)]
  · have h1 : (fsm ++ [[]]).length ≤ s := by simp; omega
    simp [getEdges, List.getD, List.getElem?_eq_none h1,
      List.getElem?_eq_none (Nat.le_of_lt h)]

theorem getNextState_congr {f1 f2 : Fsm} {s : Nat}
    (h : getEdges f1 s = getEdges f2 s) (b : Nat) :
    getNextState f1 s b = getNextState f2 s b := by
  simp [getNextState, h]

theorem getNextState_mem {fsm : Fsm} {s b t : Nat} (h : getNextState fsm s b = some t) :
    ∃ e ∈ getEdges fsm s, e.target = t ∧ e.min ≤ b ∧ b ≤ e.max := by
  simp only [getNextState, Option.map_eq_some'] at h
  obtain ⟨e, he, rfl⟩ := h
  have hm := List.mem_of_find?_eq_some he
  have hp := List.find?_some he
  simp only [decide_eq_true_eq] at hp
  exact ⟨e, hm, rfl, hp.1, hp.2⟩

theorem runFsm_append (fsm : Fsm) :
    ∀ (p q : ByteStr) (s : Nat),
    runFsm fsm s (p ++ q) = (runFsm fsm s p).bind (fun t => runFsm fsm t q) := by
  intro p
  induction p with
  | nil => intro q s; simp [runFsm]
  | cons b p ih =>
    intro q s
    simp only [List.cons_append, runFsm]
    cases getNextState fsm s b with
    | none => simp
    | some t => simp [ih]

theorem fsmLe_trans {f1 f2 f3 : Fsm} (h1 : fsmLe f1 f2) (h2 : fsmLe f2 f3) : fsmLe f1 f3 :=
  fun s b t h => h2 s b t (h1 s b t h)

theorem runFsm_mono {f1 f2 : Fsm} (h : fsmLe f1 f2) :
    ∀ (p : ByteStr) (s t : Nat), runFsm f1 s p = some t → runFsm f2 s p = some t := by
  intro p
  induction p with
  | nil => intro s t hr; simpa [runFsm] using hr
  | cons b p ih =>
    intro s t hr
    simp only [runFsm] at hr ⊢
    cases hn : getNextState f1 s b with
    | none => rw [hn] at hr; simp at hr
    | some u =>
      rw [hn] at hr
      rw [h s b u hn]
      exact ih u t hr

theorem runFsm_lt {fsm : Fsm} (hwf : trieWF fsm) :
    ∀ (p : ByteStr) (s t : Nat), s < fsm.length → runFsm fsm s p = some t → t < fsm.length := by
  intro p
  induction p with
  | nil => intro s t hs hr; simp only [runFsm, Option.some.injEq] at hr; omega
  | cons b p ih =>
    intro s t hs hr
    simp only [runFsm] at hr
    cases hn : getNextState fsm s b with
    | none => rw [hn] at hr; simp at hr
    | some u =>
      rw [hn] at hr
      obtain ⟨e, he, het, _, _⟩ := getNextState_mem hn
      have := (hwf.2.1 s e he).2.2
      exact ih u t (het ▸ this) hr

theorem getNextState_pos {fsm : Fsm} (hwf : trieWF fsm) {s b t : Nat}
    (h : getNextState fsm s b = some t) : 1 ≤ t ∧ t < fsm.length := by
  obtain ⟨e, he, het, _, _⟩ := getNextState_mem h
  have := hwf.2.1 s e he
  omega

/-- Classification of an edge of the trie after one `AddEdge` onto a
fresh state. -/
theorem mem_addEdge {fsm : Fsm} {cur : Nat} {ne : FSMEdge} (hcur : cur < fsm.length)
    {s : Nat} {e : FSMEdge} (h : e ∈ getEdges (addEdgeF (fsm ++ [[]]) cur ne) s) :
    e ∈ getEdges fsm s ∨ (s = cur ∧ e = ne) := by
  unfold addEdgeF at h
  by_cases hs : cur = s
  · subst hs
    rw [getEdges_set_self _ _ _ (by simp; omega), getEdges_append_empty] at h
    rcases List.mem_append.mp h with h | h
    · exact Or.inl h
    · exact Or.inr ⟨rfl, by simpa using h⟩
  · rw [getEdges_set_ne _ _ _ _ hs, getEdges_append_empty] at h
    exact Or.inl h

theorem trieInsertFrom_spec :
    ∀ (p : ByteStr) (fsm : Fsm) (cur : Nat), trieWF fsm → cur < fsm.length →
    trieWF (trieInsertFrom fsm cur p).1 ∧
    fsmLe fsm (trieInsertFrom fsm cur p).1 ∧
    fsm.length ≤ (trieInsertFrom fsm cur p).1.length ∧
    (trieInsertFrom fsm cur p).2 < (trieInsertFrom fsm cur p).1.length ∧
    runFsm (trieInsertFrom fsm cur p).1 cur p = some (trieInsertFrom fsm cur p).2 ∧
    ((p ≠ [] ∨ 1 ≤ cur) → 1 ≤ (trieInsertFrom fsm cur p).2) := by
  intro p
  induction p with
  | nil =>
    intro fsm cur hwf hcur
    refine ⟨hwf, fun s b t h => h, Nat.le_refl _, hcur, rfl, ?_⟩
    rintro (h | h)
    · exact absurd rfl h
    · exact h
  | cons b rest ih =>
    intro fsm cur hwf hcur
    cases hn : getNextState fsm cur b with
    | some nxt =>
      have heq : trieInsertFrom fsm cur (b :: rest) = trieInsertFrom fsm nxt rest := by
        simp only [trieInsertFrom, hn]
      obtain ⟨hn1, hnlen⟩ := getNextState_pos hwf hn
      obtain ⟨iwf, ile, ilen, ibound, irun, ige⟩ := ih fsm nxt hwf hnlen
      rw [heq]
      refine ⟨iwf, ile, ilen, ibound, ?_, fun _ => ige (Or.inr hn1)⟩
      simp only [runFsm, ile cur b nxt hn]
      exact irun
    | none =>
      have heq : trieInsertFrom fsm cur (b :: rest) =
          trieInsertFrom (addEdgeF (fsm ++ [[]]) cur ⟨b, b, fsm.length⟩) fsm.length rest := by
        simp only [trieInsertFrom, hn]
      set fsm2 : Fsm := addEdgeF (fsm ++ [[]]) cur ⟨b, b, fsm.length⟩ with hfsm2
      have hlen2 : fsm2.length = fsm.length + 1 := by
        simp [hfsm2, addEdgeF]
      have hcur2 : cur < (fsm ++ [[]]).length := by simp; omega
      have hedges_cur : getEdges fsm2 cur = getEdges fsm cur ++ [⟨b, b, fsm.length⟩] := by
        rw [hfsm2]
        unfold addEdgeF
        rw [getEdges_set_self _ _ _ hcur2, getEdges_append_empty]
      have hedges_ne : ∀ j, j ≠ cur → getEdges fsm2 j = getEdges fsm j := by
        intro j hj
        rw [hfsm2]
        unfold addEdgeF
        rw [getEdges_set_ne _ _ _ _ (Ne.symm hj), getEdges_append_empty]
      have hwf2 : trieWF fsm2 := by
        refine ⟨by omega, ?_, ?_⟩
        · intro s e he
          rcases mem_addEdge hcur he with h | ⟨_, rfl⟩
          · obtain ⟨ha, hb2, hc2⟩ := hwf.2.1 s e h
            exact ⟨ha, hb2, by omega⟩
          · refine ⟨rfl, ?_, ?_⟩
            · show 1 ≤ fsm.length
              exact hwf.1
            · show fsm.length < fsm2.length
              omega
        · intro s1 s2 e1 e2 h1 h2 htgt
          rcases mem_addEdge hcur h1 with h1o | ⟨rfl, rfl⟩ <;>
            rcases mem_addEdge hcur h2 with h2o | ⟨h2c, h2e⟩
          · exact hwf.2.2 s1 s2 e1 e2 h1o h2o htgt
          · have h3 := (hwf.2.1 s1 e1 h1o).2.2
            rw [h2e] at htgt
            have h4 : e1.target = fsm.length := htgt
            omega
          · have h3 := (hwf.2.1 s2 e2 h2o).2.2
            have h4 : (⟨b, b, fsm.length⟩ : FSMEdge).target = e2.target := htgt
            have h5 : fsm.length = e2.target := h4
            omega
          · exact ⟨h2c.symm ▸ rfl, h2e.symm⟩
      have hle2 : fsmLe fsm fsm2 := by
        intro s bb t h
        by_cases hs : s = cur
        · subst hs
          simp only [getNextState, Option.map_eq_some'] at h ⊢
          obtain ⟨e, he, rfl⟩ := h
          refine ⟨e, ?_, rfl⟩
          rw [hedges_cur, List.find?_append, he]
          rfl
        · rw [getNextState_congr (hedges_ne s hs) bb]
          exact h
      have hstep : getNextState fsm2 cur b = some fsm.length := by
        have hnone : (getEdges fsm cur).find? (fun e => decide (e.min ≤ b ∧ b ≤ e.max)) =
            none := by
          simp only [getNextState] at hn
          exact Option.map_eq_none'.mp hn
        simp only [getNextState, hedges_cur, List.find?_append, hnone, Option.none_or]
        rw [List.find?_cons_of_pos _ (by simp)]
        rfl
      obtain ⟨iwf, ile, ilen, ibound, irun, ige⟩ :=
        ih fsm2 fsm.length (by exact hwf2) (by omega)
      rw [heq]
      refine ⟨iwf, fsmLe_trans hle2 ile, by omega, ibound, ?_,
        fun _ => ige (Or.inr (by have := hwf.1; omega))⟩
      simp only [runFsm, ile cur b fsm.length hstep]
      exact irun

/-- The fold of `buildTrie` keeps the trie well-formed, only extends
transitions, and records only end states of processed excluded
strings. -/
theorem buildTrieGo_spec :
    ∀ (l : List ByteStr) (fsm : Fsm) (ds : List Nat), trieWF fsm →
    trieWF (l.foldl
      (fun acc e =>
        let ie := trieInsertFrom acc.1 0 e
        (ie.1, acc.2 ++ [ie.2])) (fsm, ds)).1 ∧
    fsmLe fsm (l.foldl
      (fun acc e =>
        let ie := trieInsertFrom acc.1 0 e
        (ie.1, acc.2 ++ [ie.2])) (fsm, ds)).1 ∧
    (∀ d ∈ (l.foldl
      (fun acc e =>
        let ie := trieInsertFrom acc.1 0 e
        (ie.1, acc.2 ++ [ie.2])) (fsm, ds)).2,
      d ∈ ds ∨ ∃ e ∈ l, runFsm (l.foldl
        (fun acc e =>
          let ie := trieInsertFrom acc.1 0 e
          (ie.1, acc.2 ++ [ie.2])) (fsm, ds)).1 0 e = some d ∧ (e = [] ∨ 1 ≤ d)) := by
  intro l
  induction l with
  | nil =>
    intro fsm ds hwf
    exact ⟨hwf, fun s b t h => h, fun d hd => Or.inl hd⟩
  | cons e l ih =>
    intro fsm ds hwf
    rw [List.foldl_cons]
    obtain ⟨iwf, ile, ilen, ibound, irun, ige⟩ := trieInsertFrom_spec e fsm 0 hwf hwf.1
    obtain ⟨jwf, jle, jmem⟩ :=
      ih (trieInsertFrom fsm 0 e).1 (ds ++ [(trieInsertFrom fsm 0 e).2]) iwf
    refine ⟨jwf, fsmLe_trans ile jle, ?_⟩
    intro d hd
    rcases jmem d hd with hds | ⟨f, hf, hrun, hge⟩
    · rcases List.mem_append.mp hds with hds | hds
      · exact Or.inl hds
      · right
        refine ⟨e, by simp, ?_, ?_⟩
        · have hd2 : d = (trieInsertFrom fsm 0 e).2 := by simpa using hds
          rw [hd2]
          exact runFsm_mono jle e 0 _ irun
        · have hd2 : d = (trieInsertFrom fsm 0 e).2 := by simpa using hds
          by_cases he : e = []
          · exact Or.inl he
          · exact Or.inr (hd2 ▸ ige (Or.inl he))
    · exact Or.inr ⟨f, by simp [hf], hrun, hge⟩

/-- `buildTrie` yields a well-formed trie whose recorded dead states
are exactly end states of excluded strings (positive when the string is
non-empty). -/
theorem buildTrie_spec (excludes : List ByteStr) :
    trieWF (buildTrie excludes).1 ∧
    (∀ d ∈ (buildTrie excludes).2, ∃ e ∈ excludes,
      runFsm (buildTrie excludes).1 0 e = some d ∧ (e = [] ∨ 1 ≤ d)) := by
  have hwf0 : trieWF [[]] := by
    refine ⟨by simp, ?_, ?_⟩
    · intro s e he
      have : getEdges [[]] s = [] := by
        cases s <;> simp [getEdges, List.getD]
      rw [this] at he
      simp at he
    · intro s1 s2 e1 e2 h1 h2 _
      have : getEdges [[]] s1 = [] := by
        cases s1 <;> simp [getEdges, List.getD]
      rw [this] at h1
      simp at h1
  obtain ⟨hwf, _, hmem⟩ := buildTrieGo_spec excludes [[]] [] hwf0
  refine ⟨hwf, ?_⟩
  intro d hd
  rcases hmem d hd with h | h
  · simp at h
  · exact h

/-- In a well-formed trie, no transition enters the root. -/
theorem no_edge_to_root {fsm : Fsm} (hwf : trieWF fsm) {s b : Nat} :
    getNextState fsm s b ≠ some 0 := by
  intro h
  obtain ⟨e, he, het, _, _⟩ := getNextState_mem h
  have := (hwf.2.1 s e he).2.1
  omega

/-- Trie runs from the root are injective: a state addresses at most
one string. -/
theorem runFsm_inj {fsm : Fsm} (hwf : trieWF fsm) :
    ∀ (p q : ByteStr) (t : Nat), runFsm fsm 0 p = some t → runFsm fsm 0 q = some t →
    p = q := by
  intro p
  induction p using List.reverseRecOn with
  | nil =>
    intro q t hp hq
    simp only [runFsm, Option.some.injEq] at hp
    subst hp
    induction q using List.reverseRecOn with
    | nil => rfl
    | append_singleton q' c _ =>
      rw [runFsm_append] at hq
      cases hs : runFsm fsm 0 q' with
      | none => rw [hs] at hq; simp at hq
      | some s' =>
        rw [hs] at hq
        simp only [Option.some_bind, runFsm] at hq
        cases hn : getNextState fsm s' c with
        | none => rw [hn] at hq; simp at hq
        | some u =>
          rw [hn] at hq
          simp only [runFsm, Option.some.injEq] at hq
          exact absurd (hq ▸ hn) (no_edge_to_root hwf)
  | append_singleton p' b ih =>
    intro q t hp hq
    rw [runFsm_append] at hp
    cases hps : runFsm fsm 0 p' with
    | none => rw [hps] at hp; simp at hp
    | some s1 =>
      rw [hps] at hp
      simp only [Option.some_bind, runFsm] at hp
      cases hn1 : getNextState fsm s1 b with
      | none => rw [hn1] at hp; simp at hp
      | some u1 =>
        rw [hn1] at hp
        simp only [runFsm, Option.some.injEq] at hp
        subst hp
        induction q using List.reverseRecOn with
        | nil =>
          simp only [runFsm, Option.some.injEq] at hq
          exact absurd (hq ▸ hn1) (no_edge_to_root hwf)
        | append_singleton q' c _ =>
          rw [runFsm_append] at hq
          cases hqs : runFsm fsm 0 q' with
          | none => rw [hqs] at hq; simp at hq
          | some s2 =>
            rw [hqs] at hq
            simp only [Option.some_bind, runFsm] at hq
            cases hn2 : getNextState fsm s2 c with
            | none => rw [hn2] at hq; simp at hq
            | some u2 =>
              rw [hn2] at hq
              simp only [runFsm, Option.some.injEq] at hq
              subst hq
              obtain ⟨e1, he1, het1, hb1, hb2⟩ := getNextState_mem hn1
              obtain ⟨e2, he2, het2, hc1, hc2⟩ := getNextState_mem hn2
              obtain ⟨hs12, he12⟩ :=
                hwf.2.2 s1 s2 e1 e2 he1 he2 (by omega)
              subst hs12
              have hbc : b = c := by
                have hm1 := (hwf.2.1 s1 e1 he1).1
                have hm2 := (hwf.2.1 s1 e2 he2).1
                subst he12
                omega
              subst hbc
              rw [ih q' s1 hps hqs]

theorem completeState_length (fsm : Fsm) (s : Nat) :
    (completeState fsm s).length = fsm.length := by
  simp [completeState, List.length_set]

theorem completeState_getEdges_ne (fsm : Fsm) (s j : Nat) (h : s ≠ j) :
    getEdges (completeState fsm s) j = getEdges fsm j := by
  simp only [completeState]
  exact getEdges_set_ne _ _ _ _ h

theorem foldComplete_length (dead : List Nat) :
    ∀ (L : List Nat) (acc : Fsm),
    (L.foldl (fun acc s => if dead.contains s then acc else completeState acc s) acc).length =
      acc.length := by
  intro L
  induction L with
  | nil => intro acc; rfl
  | cons x L ih =>
    intro acc
    rw [List.foldl_cons, ih]
    cases hc : dead.contains x
    · rw [if_neg (by simp), completeState_length]
    · rw [if_pos rfl]

theorem foldComplete_getEdges_notmem (dead : List Nat) :
    ∀ (L : List Nat) (acc : Fsm) (j : Nat), j ∉ L →
    getEdges
      (L.foldl (fun acc s => if dead.contains s then acc else completeState acc s) acc) j =
      getEdges acc j := by
  intro L
  induction L with
  | nil => intro acc j _; rfl
  | cons x L ih =>
    intro acc j hj
    rw [List.foldl_cons, ih _ j (fun h => hj (List.mem_cons_of_mem x h))]
    cases hc : dead.contains x
    · rw [if_neg (by simp)]
      exact completeState_getEdges_ne _ _ _ (fun h => hj (h ▸ List.mem_cons_self x L))
    · rw [if_pos rfl]

theorem completeAll_getEdges_zero (T : Fsm) (dead : List Nat)
    (h0 : dead.contains 0 = false) (hlen : 0 < T.length) :
    getEdges (completeAll T dead) 0 =
      getEdges T 0 ++ gapEdges (coveredOf (getEdges T 0)) := by
  unfold completeAll
  obtain ⟨m, hm⟩ : ∃ m, T.length = m + 1 := ⟨T.length - 1, by omega⟩
  rw [hm, List.range_eq_range', List.range'_succ, List.foldl_cons]
  rw [foldComplete_getEdges_notmem dead _ _ 0 (by simp [List.mem_range']; omega)]
  rw [h0, if_neg (by simp)]
  rw [show completeState T 0 =
      T.set 0 (getEdges T 0 ++ gapEdges (coveredOf (getEdges T 0))) from by
    simp [completeState]]
  exact getEdges_set_self _ _ _ hlen

theorem completeAll_getEdges_pos (T : Fsm) (dead : List Nat) (s : Nat)
    (hs0 : s ≠ 0) (hs : s < T.length) (hnd : dead.contains s = false) :
    getEdges (completeAll T dead) s =
      (copyStartEdges (getEdges (completeAll T dead) 0) (getEdges T s)
        (coveredOf (getEdges T s))).1 ++
      gapEdges ((copyStartEdges (getEdges (completeAll T dead) 0) (getEdges T s)
        (coveredOf (getEdges T s))).2) := by
  have hsplit : List.range T.length =
      List.range' 0 s ++ s :: List.range' (s + 1) (T.length - s - 1) := by
    have ha := List.range'_append 0 s (T.length - s) 1
    rw [show 0 + 1 * s = s by omega, show T.length - s + s = T.length by omega] at ha
    rw [List.range_eq_range', ← ha,
      show T.length - s = (T.length - s - 1) + 1 by omega, List.range'_succ]
    simp
  have hC0 : getEdges (completeAll T dead) 0 =
      getEdges (List.foldl
        (fun acc s => if dead.contains s then acc else completeState acc s)
        T (List.range' 0 s)) 0 := by
    unfold completeAll
    rw [hsplit, List.foldl_append]
    exact foldComplete_getEdges_notmem dead _ _ 0 (by
      intro hmem
      rcases List.mem_cons.mp hmem with h | h
      · exact hs0 h.symm
      · rw [List.mem_range'] at h
        obtain ⟨i, _, hi⟩ := h
        omega)
  have hAs : getEdges (List.foldl
      (fun acc s => if dead.contains s then acc else completeState acc s)
      T (List.range' 0 s)) s = getEdges T s :=
    foldComplete_getEdges_notmem dead _ _ s (by
      intro hmem
      rw [List.mem_range'] at hmem
      obtain ⟨i, hi, he⟩ := hmem
      omega)
  have hAlen : (List.foldl
      (fun acc s => if dead.contains s then acc else completeState acc s)
      T (List.range' 0 s)).length = T.length := foldComplete_length dead _ _
  conv_lhs => rw [show completeAll T dead = List.foldl
      (fun acc s => if dead.contains s then acc else completeState acc s)
      T (List.range T.length) from rfl]
  rw [hsplit, List.foldl_append, List.foldl_cons]
  rw [foldComplete_getEdges_notmem dead _ _ s (by
    intro hmem
    rw [List.mem_range'] at hmem
    obtain ⟨i, hi, he⟩ := hmem
    omega)]
  rw [hnd, if_neg (by simp)]
  rw [show ∀ (A : Fsm), completeState A s =
      A.set s ((copyStartEdges (getEdges A 0) (getEdges A s) (coveredOf (getEdges A s))).1 ++
        gapEdges ((copyStartEdges (getEdges A 0) (getEdges A s)
          (coveredOf (getEdges A s))).2)) from fun A => by
    simp [completeState, hs0]]
  rw [getEdges_set_self _ _ _ (by rw [hAlen]; exact hs), hAs, ← hC0]

theorem getEdges_removeDead (C : Fsm) (dead : List Nat) :
    ∀ (s : Nat), getEdges (removeDeadEdges C dead) s =
      (getEdges C s).filter (fun e => !dead.contains e.target) := by
  unfold removeDeadEdges
  induction C with
  | nil => intro s; cases s <;> rfl
  | cons es rest ih =>
    intro s
    cases s with
    | zero => rfl
    | succ n => exact ih n

theorem nextState_removeDead {C : Fsm} {dead : List Nat} {s b t : Nat}
    (h : getNextState C s b = some t) (ht : dead.contains t = false) :
    getNextState (removeDeadEdges C dead) s b = some t := by
  simp only [getNextState, Option.map_eq_some'] at h
  obtain ⟨e, he, rfl⟩ := h
  have hfind := find_filter_first _ (fun e => !dead.contains e.target) _ e he (by
    show (!dead.contains e.target) = true
    rw [ht]
    rfl)
  unfold getNextState
  rw [getEdges_removeDead, hfind]
  rfl

theorem nextState_completed (T : Fsm) (dead : List Nat) (hwf : trieWF T)
    (s b : Nat) (hs : s < T.length) (hb : b < 256)
    (hnd : dead.contains s = false) (h0 : dead.contains 0 = false) :
    ∃ t, getNextState (completeAll T dead) s b = some t ∧ t < T.length ∧
      (getNextState T s b = some t ∨
       (getNextState T s b = none ∧ getNextState T 0 b = some t) ∨
       (getNextState T s b = none ∧ getNextState T 0 b = none ∧ t = 0)) := by
  have h0len : 0 < T.length := hwf.1
  have hC0 : getEdges (completeAll T dead) 0 =
      getEdges T 0 ++ gapEdges (coveredOf (getEdges T 0)) :=
    completeAll_getEdges_zero T dead h0 h0len
  have hC0sb : ∀ e ∈ getEdges (completeAll T dead) 0, e.min = e.max := by
    intro e he
    rw [hC0] at he
    rcases List.mem_append.mp he with h | h
    · exact (hwf.2.1 0 e h).1
    · unfold gapEdges at h
      obtain ⟨c, _, rfl⟩ := List.mem_map.mp h
      rfl
  have hC0find : ∃ e0, (getEdges (completeAll T dead) 0).find?
        (fun e => decide (e.min ≤ b ∧ b ≤ e.max)) = some e0 ∧
      (getNextState T 0 b = some e0.target ∨
        (getNextState T 0 b = none ∧ e0.target = 0)) := by
    rw [hC0, List.find?_append]
    cases hf : (getEdges T 0).find? (fun e => decide (e.min ≤ b ∧ b ≤ e.max)) with
    | some e =>
      exact ⟨e, rfl, Or.inl (by unfold getNextState; rw [hf]; rfl)⟩
    | none =>
      have hcov : b ∉ coveredOf (getEdges T 0) := (find_none_iff_uncovered _ _).mp hf
      rw [find_gapEdges, if_pos ⟨hb, hcov⟩]
      exact ⟨⟨b, b, 0⟩, rfl, Or.inr ⟨by unfold getNextState; rw [hf]; rfl, rfl⟩⟩
  by_cases hs0 : s = 0
  · subst hs0
    obtain ⟨e0, hfind, hcase⟩ := hC0find
    refine ⟨e0.target, by unfold getNextState; rw [hfind]; rfl, ?_, ?_⟩
    · rcases hcase with h | ⟨_, h⟩
      · exact (getNextState_pos hwf h).2
      · rw [h]; exact h0len
    · rcases hcase with h | ⟨hn, h⟩
      · exact Or.inl h
      · exact Or.inr (Or.inr ⟨hn, hn, h⟩)
  · have hCs := completeAll_getEdges_pos T dead s hs0 hs hnd
    simp only [copyStartEdges_eq] at hCs
    cases hfs : (getEdges T s).find? (fun e => decide (e.min ≤ b ∧ b ≤ e.max)) with
    | some e =>
      have hT : getNextState T s b = some e.target := by unfold getNextState; rw [hfs]; rfl
      refine ⟨e.target, ?_, (getNextState_pos hwf hT).2, Or.inl hT⟩
      unfold getNextState
      rw [hCs, List.find?_append, List.find?_append, hfs]
      rfl
    | none =>
      have hcovs : b ∉ coveredOf (getEdges T s) := (find_none_iff_uncovered _ _).mp hfs
      obtain ⟨e0, hfind, hcase⟩ := hC0find
      have hsel : (copySel (getEdges (completeAll T dead) 0)
            (coveredOf (getEdges T s))).find?
          (fun e => decide (e.min ≤ b ∧ b ≤ e.max)) = some e0 := by
        rw [copySel_find b _ _ hC0sb, if_neg hcovs]
        exact hfind
      have hnext : getNextState (completeAll T dead) s b = some e0.target := by
        unfold getNextState
        rw [hCs, List.find?_append, List.find?_append, hfs, hsel]
        rfl
      have hTs : getNextState T s b = none := by unfold getNextState; rw [hfs]; rfl
      refine ⟨e0.target, hnext, ?_, ?_⟩
      · rcases hcase with h | ⟨_, h⟩
        · exact (getNextState_pos hwf h).2
        · rw [h]; exact h0len
      · rcases hcase with h | ⟨hn, h⟩
        · exact Or.inr (Or.inl ⟨hTs, h⟩)
        · exact Or.inr (Or.inr ⟨hTs, hn, h⟩)

/-- C1 (amended): the exclusion automaton accepts every byte string
that contains no excluded substring (the claimed "exactly" is refuted
by `c1_excluded_substring_accepted`: the simplified fallback-to-start
completion also accepts some strings that do contain one). -/
theorem c1_clean_strings_accepted (excludes : List ByteStr) (w : ByteStr)
    (hb : ∀ b ∈ w, b < 256)
    (hcl : ∀ e ∈ excludes, ¬ e <:+: w) :
    excludeAccepts excludes w = true := by
  obtain ⟨hwf, hD⟩ := buildTrie_spec excludes
  set T := (buildTrie excludes).1 with hT
  set D := (buildTrie excludes).2 with hDdef
  have h0 : D.contains 0 = false := by
    cases hc : D.contains 0
    · rfl
    · exfalso
      obtain ⟨e, he, hrun, hcase⟩ := hD 0 (by simpa using hc)
      rcases hcase with rfl | hge
      · exact hcl [] he (List.nil_infix)
      · omega
  have key : ∀ (v u : ByteStr) (s : Nat), w = u ++ v → (∀ b ∈ v, b < 256) →
      (∃ q, q <:+ u ∧ runFsm T 0 q = some s) →
      s < T.length → D.contains s = false →
      ∃ f, runFsm (removeDeadEdges (completeAll T D) D) s v = some f ∧
        D.contains f = false := by
    intro v
    induction v with
    | nil =>
      intro u s _ _ _ _ hnd
      exact ⟨s, rfl, hnd⟩
    | cons b v ih =>
      intro u s hw hbv hex hslen hnd
      obtain ⟨q, hq, hrunq⟩ := hex
      obtain ⟨t, hct, htlen, hcase⟩ :=
        nextState_completed T D hwf s b hslen (hbv b (by simp)) hnd h0
      have hqt : ∃ qt, qt <:+ (u ++ [b]) ∧ runFsm T 0 qt = some t := by
        rcases hcase with h | ⟨_, h⟩ | ⟨_, _, rfl⟩
        · obtain ⟨x, rfl⟩ := hq
          refine ⟨q ++ [b], ⟨x, by simp⟩, ?_⟩
          rw [runFsm_append, hrunq]
          simp [runFsm, h]
        · exact ⟨[b], ⟨u, rfl⟩, by simp [runFsm, h]⟩
        · exact ⟨[], ⟨u ++ [b], by simp⟩, rfl⟩
      have htd : D.contains t = false := by
        cases hc : D.contains t
        · rfl
        · exfalso
          obtain ⟨e, he, hrun, _⟩ := hD t (by simpa using hc)
          obtain ⟨qt, hqt1, hqt2⟩ := hqt
          have heq : e = qt := runFsm_inj hwf e qt t hrun hqt2
          obtain ⟨x, hx⟩ := hqt1
          have hwsplit : x ++ qt ++ v = w := by
            rw [hx, hw]
            simp
          refine hcl e he ?_
          rw [heq]
          exact ⟨x, v, hwsplit⟩
      have hFstep := nextState_removeDead hct htd
      obtain ⟨f, hf1, hf2⟩ := ih (u ++ [b]) t (by rw [hw]; simp)
        (fun c hc => hbv c (by simp [hc])) hqt htlen htd
      refine ⟨f, ?_, hf2⟩
      simp [runFsm, hFstep, hf1]
  obtain ⟨f, hf1, hf2⟩ := key w [] 0 rfl hb ⟨[], ⟨[], rfl⟩, rfl⟩ hwf.1 h0
  simp only [excludeAccepts, buildExcludeFsm]
  rw [← hT, ← hDdef, hf1]
  show (!D.contains f) = true
  rw [hf2]
  rfl

set_option maxRecDepth 10000 in
/-- C1 (counterexample): the exclusion automaton accepts `"aaab"` with
excluded set containing only `"aab"`, although `"aab"` occurs in it as
a substring: the simplified completion falls back as if only the last
byte could start a match, losing the `"aa"` overlap. -/
theorem c1_excluded_substring_accepted :
    excludeAccepts [[97, 97, 98]] [97, 97, 97, 98] = true ∧
    [97, 97, 98] <:+: [97, 97, 97, 98] :=
  ⟨by decide, by decide⟩

/-- Witness for `c1_clean_strings_accepted`: `"aba"` has no occurrence
of `"aab"`. -/
theorem c1_clean_strings_accepted_witness :
    excludeAccepts [[97, 97, 98]] [97, 98, 97] = true :=
  c1_clean_strings_accepted [[97, 97, 98]] [97, 98, 97] (by decide) (by decide)

end XGrammar
